import Mathlib

/-!
Verification of the `rust_tokenizer` BPE core (`src/rust_tokenizer/src/lib.rs`).

The Rust source is shallowly embedded: `u32` symbol ids become `Nat`,
`i32` multiplicities and pair counts become `Int`, `u64` cached heap
counts become `Nat` (with the `i32 -> u64` cast made explicit),
`Vec` becomes `List`, and the `AHashMap`/`AHashSet` containers become
association lists / lists with set-typed membership, matching the
map semantics (first-match lookup, entry update or insert) of the
hash maps used by the source.
-/

namespace RustTok

/-- `type Pair = (u32, u32)` (lib.rs line 14). -/
abbrev Pair := Nat × Nat

/-! ## Word and merge_pair (lib.rs lines 22-86) -/

/-- `Word::pairs` (lib.rs lines 33-36): the adjacent pairs
`ids.windows(2).map(|w| (w[0], w[1]))`. -/
def wordPairs (ids : List Nat) : List Pair := ids.zip ids.tail

/-- Loop of `Word::merge_pair` (lib.rs lines 52-81).  The accumulator `out`
is kept reversed, so `out.last()` of the source is `acc.head?` here; the
`deltas` vector is passed along and appended to in source order.  The
pattern `x :: y :: rest` is the source's `i + 1 < n` lookahead, and
`rest.head?` is the source's `i + 2 < n` right-neighbor probe. -/
def mergePairGo (a b newId : Nat) : List Nat → List Nat → List (Pair × Int) →
    List Nat × List (Pair × Int)
  | acc, x :: y :: rest, ds =>
    if x = a ∧ y = b then
      let ds1 := match acc.head? with
        | some prev => ds ++ [((prev, a), (-1 : Int)), ((prev, newId), (1 : Int))]
        | none => ds
      let ds2 := ds1 ++ [((a, b), (-1 : Int))]
      let ds3 := match rest.head? with
        | some next => ds2 ++ [((b, next), (-1 : Int)), ((newId, next), (1 : Int))]
        | none => ds2
      mergePairGo a b newId (newId :: acc) rest ds3
    else
      mergePairGo a b newId (x :: acc) (y :: rest) ds
  | acc, [x], ds => ((x :: acc).reverse, ds)
  | acc, [], ds => (acc.reverse, ds)

/-- `Word::merge_pair` (lib.rs lines 39-85): returns the new id sequence
(the source writes it back into `self.ids`) together with the delta list.
`if n < 2 { return Vec::new() }` leaves the ids untouched with no deltas. -/
def mergePair (ids : List Nat) (pair : Pair) (newId : Nat) :
    List Nat × List (Pair × Int) :=
  if ids.length < 2 then (ids, []) else mergePairGo pair.1 pair.2 newId [] ids []

/-- Spec-side description of the merged sequence, transcribed from the spec:
scan left-to-right; on `ids[i] = a, ids[i+1] = b` emit `new_id` and skip by 2
(the middle symbol of a run is not reused); otherwise copy and advance by 1. -/
def mergeOutSpec (a b newId : Nat) : List Nat → List Nat
  | x :: y :: rest =>
    if x = a ∧ y = b then newId :: mergeOutSpec a b newId rest
    else x :: mergeOutSpec a b newId (y :: rest)
  | l => l

/-- Spec-side description of the emitted deltas, transcribed from the spec:
per consumed occurrence, `((prev,a),-1)` and `((prev,new_id),+1)` when a
symbol `prev` precedes the merge site in the output, always `((a,b),-1)`,
and `((b,next),-1)`, `((new_id,next),+1)` when a symbol exists at `i+2`.
`prev` is the last symbol emitted so far (`none` at the start). -/
def mergeDeltasSpec (a b newId : Nat) : Option Nat → List Nat → List (Pair × Int)
  | prev, x :: y :: rest =>
    if x = a ∧ y = b then
      (match prev with
        | some p => [((p, a), (-1 : Int)), ((p, newId), (1 : Int))]
        | none => []) ++
      [((a, b), (-1 : Int))] ++
      (match rest.head? with
        | some next => [((b, next), (-1 : Int)), ((newId, next), (1 : Int))]
        | none => []) ++
      mergeDeltasSpec a b newId (some newId) rest
    else mergeDeltasSpec a b newId (some x) (y :: rest)
  | _, _ => []

theorem mergePairGo_spec (a b newId : Nat) :
    ∀ (l acc : List Nat) (ds : List (Pair × Int)),
      mergePairGo a b newId acc l ds =
        (acc.reverse ++ mergeOutSpec a b newId l,
         ds ++ mergeDeltasSpec a b newId acc.head? l)
  | x :: y :: rest, acc, ds => by
    by_cases h : x = a ∧ y = b
    · simp only [mergePairGo, mergeOutSpec, mergeDeltasSpec, if_pos h]
      rw [mergePairGo_spec a b newId rest (newId :: acc)]
      cases acc with
      | nil =>
        cases hr : rest.head? <;>
          simp [mergeDeltasSpec, List.append_assoc]
      | cons p acc' =>
        cases hr : rest.head? <;>
          simp [mergeDeltasSpec, List.append_assoc]
    · simp only [mergePairGo, mergeOutSpec, mergeDeltasSpec, if_neg h]
      rw [mergePairGo_spec a b newId (y :: rest) (x :: acc)]
      simp [List.append_assoc]
  | [x], acc, ds => by
    simp [mergePairGo, mergeOutSpec, mergeDeltasSpec]
  | [], acc, ds => by
    simp [mergePairGo, mergeOutSpec, mergeDeltasSpec]

theorem mergePair_eq_spec (ids : List Nat) (a b newId : Nat) :
    mergePair ids (a, b) newId =
      (mergeOutSpec a b newId ids, mergeDeltasSpec a b newId none ids) := by
  unfold mergePair
  split
  · rename_i h
    match ids, h with
    | [], _ => rfl
    | [x], _ => rfl
  · rw [mergePairGo_spec]
    rfl

/-- Expansion of a merged symbol back into its two parts: every occurrence
of `newId` in a sequence is replaced by `[a, b]`; other symbols are kept. -/
def unwind (a b newId : Nat) : List Nat → List Nat
  | [] => []
  | x :: r => (if x = newId then [a, b] else [x]) ++ unwind a b newId r

theorem unwind_mergeOutSpec (a b newId : Nat) :
    ∀ l : List Nat, newId ∉ l →
      unwind a b newId (mergeOutSpec a b newId l) = l
  | x :: y :: rest, h => by
    by_cases hab : x = a ∧ y = b
    · obtain ⟨hx, hy⟩ := hab
      have hnr : newId ∉ rest := fun hm => h (by simp [hm])
      simp only [mergeOutSpec, if_pos (And.intro hx hy), unwind, if_pos rfl]
      rw [unwind_mergeOutSpec a b newId rest hnr, hx, hy]
      rfl
    · have hx : x ≠ newId := fun he => h (by simp [he])
      have hyr : newId ∉ y :: rest := fun hm => h (by simp at hm ⊢; tauto)
      simp only [mergeOutSpec, if_neg hab, unwind, if_neg hx]
      rw [unwind_mergeOutSpec a b newId (y :: rest) hyr]
      rfl
  | [x], h => by
    have hx : x ≠ newId := fun he => h (by simp [he])
    simp [mergeOutSpec, unwind, hx]
  | [], _ => rfl

/-- C2: for every word, pair `(a, b)` and `new_id`, `merge_pair` scans the
id sequence left-to-right, consuming occurrences of `(a, b)` non-overlapping
(after a merge it resumes two symbols later, so the middle symbol of a run
`x x x` is not reused), copies non-matching symbols unchanged, and emits per
consumed occurrence exactly the unweighted deltas `((prev,a),-1)`,
`((prev,new_id),+1)` when a symbol `prev` precedes the merge site in the
output, always `((a,b),-1)`, and `((b,next),-1)`, `((new_id,next),+1)` when
a symbol `next` exists two positions to the right: the code function
`mergePair` coincides with the spec transcription
`(mergeOutSpec, mergeDeltasSpec)`. -/
theorem claim2_mergePair_deltas (ids : List Nat) (a b newId : Nat) :
    mergePair ids (a, b) newId =
      (mergeOutSpec a b newId ids, mergeDeltasSpec a b newId none ids) :=
  mergePair_eq_spec ids a b newId

/-- C7 counterexample: as stated ("for every word and merge"), byte-coverage
recovery fails when `new_id` already occurs in the word: for the word `[5]`
and merge `(1,2) -> 5`, `merge_pair` leaves the word as `[5]`, and expanding
every `5` back into `(1, 2)` yields `[1, 2]`, not the original `[5]`. -/
theorem claim7_cex :
    unwind 1 2 5 (mergePair [5] (1, 2) 5).1 = [1, 2] ∧
      unwind 1 2 5 (mergePair [5] (1, 2) 5).1 ≠ [5] := by
  constructor <;> decide

/-- C7 (amended: the merged symbol `new_id` must not already occur in the
word, as is the case for the fresh ids the trainer assigns): expanding every
occurrence of `new_id` in the result of `merge_pair` back into the two
symbols `(a, b)` yields exactly the original id sequence. -/
theorem claim7_unwind_mergePair (ids : List Nat) (a b newId : Nat)
    (h : newId ∉ ids) :
    unwind a b newId (mergePair ids (a, b) newId).1 = ids := by
  rw [mergePair_eq_spec]
  exact unwind_mergeOutSpec a b newId ids h

/-- C7 witness: the amended theorem applied at the word `[116, 104]`, merge
`(116, 104) -> 256`. -/
theorem claim7_witness :
    (256 ∉ [116, 104]) ∧
      unwind 116 104 256 (mergePair [116, 104] (116, 104) 256).1 =
        [116, 104] :=
  ⟨by decide, claim7_unwind_mergePair [116, 104] 116 104 256 (by decide)⟩

/-! ## Encoder (lib.rs lines 413-459) -/

/-- `u32::MAX`, the sentinel initial value of `best_merge_id` (line 433). -/
def U32MAX : Nat := 4294967295

/-- The adjacent pair at index `i`:
`(*ids.get_unchecked(i), *ids.get_unchecked(i + 1))` (line 437). -/
def pairAt (ids : List Nat) (i : Nat) : Pair := (ids.getD i 0, ids.getD (i + 1) 0)

/-- One step of the best-merge scan (lines 436-445): on a hit with
`merge_id < best_merge_id`, record `(Some i, merge_id)`. -/
def fbStep (merges : List (Pair × Nat)) (ids : List Nat)
    (st : Option Nat × Nat) (i : Nat) : Option Nat × Nat :=
  match List.lookup (pairAt ids i) merges with
  | some mid => if mid < st.2 then (some i, mid) else st
  | none => st

/-- The scan `for i in 0..ids.len() - 1` with
`best_idx = None, best_merge_id = u32::MAX` (lines 432-445). -/
def findBest (merges : List (Pair × Nat)) (ids : List Nat) : Option Nat × Nat :=
  (List.range (ids.length - 1)).foldl (fbStep merges ids) (none, U32MAX)

/-- `ids[idx] = best_merge_id; ids.remove(idx + 1)` (lines 448-449). -/
def applyAt (ids : List Nat) (i v : Nat) : List Nat :=
  (ids.set i v).eraseIdx (i + 1)

/-- The `while ids.len() >= 2` merge loop (lines 431-453), with an explicit
fuel parameter.  Each applied merge shortens `ids` by one, so fuel
`ids.length` is enough to reach the loop's exit; `bpeLoop_ge` below proves
the result is the same for every larger fuel, so `bpeMerge` (fuel =
`ids.length`) is the loop's limit. -/
def bpeLoop (merges : List (Pair × Nat)) : Nat → List Nat → List Nat
  | 0, ids => ids
  | fuel + 1, ids =>
    if 2 ≤ ids.length then
      match findBest merges ids with
      | (some i, v) => bpeLoop merges fuel (applyAt ids i v)
      | (none, _) => ids
    else ids

/-- Number of merges the loop applies, same recursion as `bpeLoop`. -/
def bpeSteps (merges : List (Pair × Nat)) : Nat → List Nat → Nat
  | 0, _ => 0
  | fuel + 1, ids =>
    if 2 ≤ ids.length then
      match findBest merges ids with
      | (some i, v) => bpeSteps merges fuel (applyAt ids i v) + 1
      | (none, _) => 0
    else 0

/-- The inner merge loop of `Tokenizer::encode` on one chunk. -/
def bpeMerge (merges : List (Pair × Nat)) (ids : List Nat) : List Nat :=
  bpeLoop merges ids.length ids

/-- An in-process tokenizer: the merge table and the special-token table
(`Tokenizer`, lib.rs lines 121-127; the compiled regex is shared by all
instances and not part of the state the claims are about).  A chunk and a
special-token key are byte sequences. -/
structure Tokenizer where
  merges : List (Pair × Nat)
  specialTokens : List (List Nat × Nat)

/-- `Tokenizer::new` (lines 301-316): empty merge and special tables. -/
def Tokenizer.new : Tokenizer := ⟨[], []⟩

/-- Per-chunk body of `Tokenizer::encode` (lines 420-455): special-token
fast path, else byte ids followed by the merge loop. -/
def encodeChunk (t : Tokenizer) (chunk : List Nat) : List Nat :=
  match List.lookup chunk t.specialTokens with
  | some id => [id]
  | none => bpeMerge t.merges chunk

/-- `Tokenizer::encode` (lines 414-459) after pretokenization: the regex
splitting of the input text into chunks is fixed and shared by every
tokenizer, so encode is modelled on the chunk sequence it produces. -/
def Tokenizer.encode (t : Tokenizer) (chunks : List (List Nat)) : List Nat :=
  (chunks.map (encodeChunk t)).flatten

/-- `Tokenizer::get_merges` (lines 473-475): a clone of the merge table. -/
def getMerges (t : Tokenizer) : List (Pair × Nat) := t.merges

/-- `Tokenizer::load_merges` (lines 478-480): replace the merge table. -/
def loadMerges (t : Tokenizer) (m : List (Pair × Nat)) : Tokenizer :=
  { t with merges := m }

theorem lookup_mem_values {α β : Type} [BEq α] (m : List (α × β)) (p : α)
    (v : β) (h : List.lookup p m = some v) : v ∈ m.map Prod.snd := by
  induction m with
  | nil => simp [List.lookup] at h
  | cons e rest ih =>
    obtain ⟨k, b⟩ := e
    simp only [List.lookup] at h
    cases hk : p == k with
    | true =>
      rw [hk] at h
      simp only [Option.some.injEq] at h
      simp [h]
    | false =>
      rw [hk] at h
      simpa using Or.inr (ih h)

/-- Prefix of the best-merge scan: fold over `range k`. -/
def fbAux (merges : List (Pair × Nat)) (ids : List Nat) (k : Nat) :
    Option Nat × Nat :=
  (List.range k).foldl (fbStep merges ids) (none, U32MAX)

theorem fbAux_succ (m : List (Pair × Nat)) (ids : List Nat) (k : Nat) :
    fbAux m ids (k + 1) = fbStep m ids (fbAux m ids k) k := by
  simp [fbAux, List.range_succ]

theorem findBest_eq_fbAux (m : List (Pair × Nat)) (ids : List Nat) :
    findBest m ids = fbAux m ids (ids.length - 1) := rfl

theorem fbAux_idx_lt (m : List (Pair × Nat)) (ids : List Nat) :
    ∀ k i v, fbAux m ids k = (some i, v) → i < k := by
  intro k
  induction k with
  | zero => intro i v h; simp [fbAux] at h
  | succ k ih =>
    intro i v h
    rw [fbAux_succ] at h
    unfold fbStep at h
    rcases hl : List.lookup (pairAt ids k) m with _ | mid <;> simp only [hl] at h
    · exact Nat.lt_succ_of_lt (ih i v h)
    · by_cases hlt : mid < (fbAux m ids k).2
      · rw [if_pos hlt] at h
        cases h; omega
      · rw [if_neg hlt] at h
        exact Nat.lt_succ_of_lt (ih i v h)

theorem findBest_idx_lt (m : List (Pair × Nat)) (ids : List Nat) (i v : Nat)
    (h : findBest m ids = (some i, v)) : i + 1 < ids.length := by
  have := fbAux_idx_lt m ids (ids.length - 1) i v h
  omega

theorem fbAux_inv (m : List (Pair × Nat)) (ids : List Nat)
    (hv : ∀ w ∈ m.map Prod.snd, w < U32MAX) (k : Nat) :
    (fbAux m ids k = (none, U32MAX) ∧
      ∀ j < k, List.lookup (pairAt ids j) m = none) ∨
    (∃ i v, fbAux m ids k = (some i, v) ∧ i < k ∧
      List.lookup (pairAt ids i) m = some v ∧
      (∀ j < k, ∀ w, List.lookup (pairAt ids j) m = some w → v ≤ w) ∧
      (∀ j < i, ∀ w, List.lookup (pairAt ids j) m = some w → v < w)) := by
  induction k with
  | zero => exact Or.inl ⟨rfl, by omega⟩
  | succ k ih =>
    rcases ih with ⟨heq, hnone⟩ | ⟨i, v, heq, hik, hlook, hmin, hleft⟩
    · rcases hk : List.lookup (pairAt ids k) m with _ | w
      · refine Or.inl ⟨?_, ?_⟩
        · rw [fbAux_succ, heq]; simp [fbStep, hk]
        · intro j hj
          rcases Nat.lt_succ_iff_lt_or_eq.mp hj with hj' | rfl
          · exact hnone j hj'
          · exact hk
      · have hw : w < U32MAX := hv w (lookup_mem_values m _ w hk)
        refine Or.inr ⟨k, w, ?_, Nat.lt_succ_self k, hk, ?_, ?_⟩
        · rw [fbAux_succ, heq]; simp [fbStep, hk, hw]
        · intro j hj w' hw'
          rcases Nat.lt_succ_iff_lt_or_eq.mp hj with hj' | rfl
          · rw [hnone j hj'] at hw'; cases hw'
          · rw [hk] at hw'; cases hw'; exact le_refl _
        · intro j hj w' hw'
          rw [hnone j hj] at hw'; cases hw'
    · rcases hk : List.lookup (pairAt ids k) m with _ | w
      · refine Or.inr ⟨i, v, ?_, Nat.lt_succ_of_lt hik, hlook, ?_, hleft⟩
        · rw [fbAux_succ, heq]; simp [fbStep, hk]
        · intro j hj w' hw'
          rcases Nat.lt_succ_iff_lt_or_eq.mp hj with hj' | rfl
          · exact hmin j hj' w' hw'
          · rw [hk] at hw'; cases hw'
      · by_cases hwv : w < v
        · refine Or.inr ⟨k, w, ?_, Nat.lt_succ_self k, hk, ?_, ?_⟩
          · rw [fbAux_succ, heq]; simp [fbStep, hk, hwv]
          · intro j hj w' hw'
            rcases Nat.lt_succ_iff_lt_or_eq.mp hj with hj' | rfl
            · exact le_of_lt (lt_of_lt_of_le hwv (hmin j hj' w' hw'))
            · rw [hk] at hw'; cases hw'; exact le_refl _
          · intro j hj w' hw'
            exact lt_of_lt_of_le hwv (hmin j hj w' hw')
        · refine Or.inr ⟨i, v, ?_, Nat.lt_succ_of_lt hik, hlook, ?_, hleft⟩
          · rw [fbAux_succ, heq]; simp [fbStep, hk]; omega
          · intro j hj w' hw'
            rcases Nat.lt_succ_iff_lt_or_eq.mp hj with hj' | rfl
            · exact hmin j hj' w' hw'
            · rw [hk] at hw'; cases hw'; omega

theorem findBest_none_char (m : List (Pair × Nat)) (ids : List Nat)
    (hv : ∀ w ∈ m.map Prod.snd, w < U32MAX) (v : Nat)
    (h : findBest m ids = (none, v)) :
    ∀ j, j + 1 < ids.length → List.lookup (pairAt ids j) m = none := by
  intro j hj
  rw [findBest_eq_fbAux] at h
  rcases fbAux_inv m ids hv (ids.length - 1) with ⟨_, hnone⟩ | ⟨i, w, heq, _⟩
  · exact hnone j (by omega)
  · rw [heq] at h; cases h

theorem findBest_some_char (m : List (Pair × Nat)) (ids : List Nat)
    (hv : ∀ w ∈ m.map Prod.snd, w < U32MAX) (i v : Nat)
    (h : findBest m ids = (some i, v)) :
    List.lookup (pairAt ids i) m = some v ∧
      (∀ j w, j + 1 < ids.length →
        List.lookup (pairAt ids j) m = some w → v ≤ w) ∧
      (∀ j w, j < i → List.lookup (pairAt ids j) m = some w → v < w) := by
  rw [findBest_eq_fbAux] at h
  rcases fbAux_inv m ids hv (ids.length - 1) with ⟨heq, _⟩ |
    ⟨i', v', heq, _, hlook, hmin, hleft⟩
  · rw [heq] at h; cases h
  · rw [heq] at h
    obtain ⟨rfl, rfl⟩ : i' = i ∧ v' = v := by
      constructor <;> [skip; skip] <;> cases h <;> rfl
    exact ⟨hlook, fun j w hj hw => hmin j (by omega) w hw,
      fun j w hj hw => hleft j hj w hw⟩

theorem applyAt_length (ids : List Nat) (i v : Nat) (h : i + 1 < ids.length) :
    (applyAt ids i v).length = ids.length - 1 := by
  simp [applyAt, List.length_eraseIdx, List.length_set]
  omega

theorem bpeLoop_small (m : List (Pair × Nat)) (ids : List Nat)
    (h : ¬ 2 ≤ ids.length) : ∀ fuel, bpeLoop m fuel ids = ids := by
  intro fuel
  cases fuel with
  | zero => rfl
  | succ f => simp [bpeLoop, h]

theorem bpeLoop_stable (m : List (Pair × Nat)) :
    ∀ fuel ids, ids.length ≤ fuel + 1 →
      bpeLoop m fuel ids = bpeLoop m (fuel + 1) ids := by
  intro fuel
  induction fuel with
  | zero =>
    intro ids h
    have h2 : ¬ 2 ≤ ids.length := by omega
    rw [bpeLoop_small m ids h2, bpeLoop_small m ids h2]
  | succ f ih =>
    intro ids h
    by_cases h2 : 2 ≤ ids.length
    · simp only [bpeLoop, if_pos h2]
      rcases hfb : findBest m ids with ⟨o, v⟩
      cases o with
      | none => rfl
      | some i =>
        have hlen := applyAt_length ids i v (findBest_idx_lt m ids i v hfb)
        exact ih (applyAt ids i v) (by omega)
    · rw [bpeLoop_small m ids h2, bpeLoop_small m ids h2]

theorem bpeLoop_ge (m : List (Pair × Nat)) (ids : List Nat) :
    ∀ fuel, ids.length ≤ fuel → bpeLoop m fuel ids = bpeMerge m ids := by
  intro fuel h
  induction fuel, h using Nat.le_induction with
  | base => rfl
  | succ n hn ih => rw [← bpeLoop_stable m n ids (by omega)]; exact ih

theorem bpeMerge_exit (m : List (Pair × Nat)) (ids : List Nat) (v : Nat)
    (h2 : 2 ≤ ids.length) (hfb : findBest m ids = (none, v)) :
    bpeMerge m ids = ids := by
  have h1 : ids.length = (ids.length - 1) + 1 := by omega
  rw [bpeMerge, h1, bpeLoop, if_pos h2, hfb]

theorem bpeMerge_step (m : List (Pair × Nat)) (ids : List Nat) (i v : Nat)
    (h2 : 2 ≤ ids.length) (hfb : findBest m ids = (some i, v)) :
    bpeMerge m ids = bpeMerge m (applyAt ids i v) := by
  have hlen := applyAt_length ids i v (findBest_idx_lt m ids i v hfb)
  have h1 : ids.length = (ids.length - 1) + 1 := by omega
  calc bpeMerge m ids = bpeLoop m ((ids.length - 1) + 1) ids := by
        rw [bpeMerge, ← h1]
    _ = bpeLoop m (ids.length - 1) (applyAt ids i v) := by
        rw [bpeLoop, if_pos h2, hfb]
    _ = bpeMerge m (applyAt ids i v) := bpeLoop_ge _ _ _ (by omega)

theorem bpeSteps_le (m : List (Pair × Nat)) :
    ∀ fuel ids, bpeSteps m fuel ids ≤ ids.length - 1 := by
  intro fuel
  induction fuel with
  | zero => intro ids; simp [bpeSteps]
  | succ f ih =>
    intro ids
    by_cases h2 : 2 ≤ ids.length
    · simp only [bpeSteps, if_pos h2]
      rcases hfb : findBest m ids with ⟨o, v⟩
      cases o with
      | none => exact Nat.zero_le _
      | some i =>
        have hlen := applyAt_length ids i v (findBest_idx_lt m ids i v hfb)
        have := ih (applyAt ids i v)
        show bpeSteps m f (applyAt ids i v) + 1 ≤ ids.length - 1
        omega
    · simp [bpeSteps, h2]

/-- C1: on a pretokenized chunk that does not match a special token, encode
initializes `ids` to the chunk's bytes and repeatedly replaces the leftmost
adjacent occurrence of the pair whose merge id is minimum among all adjacent
pairs present in the merge table, until no adjacent pair is in the table.
The hypothesis that every merge id in the table is below `u32::MAX` holds
for every trained table (trained ids are `256 + k` with `k < V - 256 ≤
u32::MAX - 256`); `u32::MAX` is the scan's sentinel.  Concretely, with
merges `{(116,104):256, (256,101):257}` and no special tokens, the chunk
"the" encodes to `[257]` and the chunk "other" to `[111, 257, 114]`. -/
theorem claim1_encode_min_merge :
    (∀ (t : Tokenizer) (chunk : List Nat),
        List.lookup chunk t.specialTokens = none →
        encodeChunk t chunk = bpeMerge t.merges chunk) ∧
    (∀ (merges : List (Pair × Nat)) (ids : List Nat),
        (∀ w ∈ merges.map Prod.snd, w < U32MAX) →
        ((∀ j, j + 1 < ids.length →
            List.lookup (pairAt ids j) merges = none) →
          bpeMerge merges ids = ids) ∧
        (∀ j v0, j + 1 < ids.length →
            List.lookup (pairAt ids j) merges = some v0 →
          ∃ i v, i + 1 < ids.length ∧
            List.lookup (pairAt ids i) merges = some v ∧
            (∀ j2 w, j2 + 1 < ids.length →
              List.lookup (pairAt ids j2) merges = some w → v ≤ w) ∧
            (∀ j2 w, j2 < i →
              List.lookup (pairAt ids j2) merges = some w → v < w) ∧
            bpeMerge merges ids = bpeMerge merges (applyAt ids i v))) ∧
    encodeChunk ⟨[((116, 104), 256), ((256, 101), 257)], []⟩
      [116, 104, 101] = [257] ∧
    encodeChunk ⟨[((116, 104), 256), ((256, 101), 257)], []⟩
      [111, 116, 104, 101, 114] = [111, 257, 114] := by
  refine ⟨?_, ?_, by decide, by decide⟩
  · intro t chunk h
    simp [encodeChunk, h]
  · intro merges ids hv
    constructor
    · intro hnone
      rcases hfb : findBest merges ids with ⟨o, v⟩
      cases o with
      | none =>
        by_cases h2 : 2 ≤ ids.length
        · exact bpeMerge_exit merges ids v h2 hfb
        · exact bpeLoop_small merges ids h2 ids.length
      | some i =>
        have hi := findBest_idx_lt merges ids i v hfb
        have := (findBest_some_char merges ids hv i v hfb).1
        rw [hnone i hi] at this
        cases this
    · intro j v0 hj hlook
      have h2 : 2 ≤ ids.length := by omega
      rcases hfb : findBest merges ids with ⟨o, v⟩
      cases o with
      | none =>
        rw [findBest_none_char merges ids hv v hfb j hj] at hlook
        cases hlook
      | some i =>
        obtain ⟨hlk, hmin, hleft⟩ := findBest_some_char merges ids hv i v hfb
        exact ⟨i, v, findBest_idx_lt merges ids i v hfb, hlk, hmin, hleft,
          bpeMerge_step merges ids i v h2 hfb⟩

/-- C1 witness: the special-token bypass and the no-merge exit applied at
concrete inputs. -/
theorem claim1_witness :
    encodeChunk ⟨[((1, 2), 300)], [([60], 5)]⟩ [61] =
      bpeMerge [((1, 2), 300)] [61] ∧
    bpeMerge [((1, 2), 300)] [7, 8] = [7, 8] := by
  constructor
  · exact claim1_encode_min_merge.1 ⟨[((1, 2), 300)], [([60], 5)]⟩ [61]
      (by decide)
  · refine (claim1_encode_min_merge.2.1 [((1, 2), 300)] [7, 8] (by decide)).1 ?_
    intro j hj
    have hj0 : j = 0 := by simp at hj; omega
    subst hj0
    decide

/-- C10: for every merge table (arbitrary tables included, as installed by
`load_merges`) and chunk of `n` bytes, each applied merge replaces `ids[i]`
and removes `ids[i+1]`, shrinking `ids` by exactly one, so the encoder's
inner loop applies at most `n - 1` merges, and the fuelled loop is stable at
fuel `n`: encode is a total function of its input. -/
theorem claim10_encode_total (merges : List (Pair × Nat)) (ids : List Nat) :
    (∀ i v, i + 1 < ids.length → (applyAt ids i v).length + 1 = ids.length) ∧
    bpeSteps merges ids.length ids ≤ ids.length - 1 ∧
    (∀ fuel, ids.length ≤ fuel → bpeLoop merges fuel ids = bpeMerge merges ids) := by
  refine ⟨?_, bpeSteps_le merges ids.length ids, bpeLoop_ge merges ids⟩
  intro i v h
  rw [applyAt_length ids i v h]
  omega

/-- C10 witness: the length decrease, the step bound and fuel stability at a
concrete table and chunk. -/
theorem claim10_witness :
    (applyAt [1, 2, 3] 0 9).length + 1 = 3 ∧
    bpeSteps [((1, 2), 300)] 3 [1, 2, 3] ≤ 2 ∧
    bpeLoop [((1, 2), 300)] 7 [1, 2, 3] = bpeMerge [((1, 2), 300)] [1, 2, 3] :=
  ⟨(claim10_encode_total [((1, 2), 300)] [1, 2, 3]).1 0 9 (by decide),
   (claim10_encode_total [((1, 2), 300)] [1, 2, 3]).2.1,
   (claim10_encode_total [((1, 2), 300)] [1, 2, 3]).2.2 7 (by decide)⟩

/-! ## Pair counting (lib.rs lines 130-211) -/

/-- First-match lookup in an association list keyed by pairs: the map
semantics of `AHashMap<Pair, _>` (keys are kept unique by `bump`/`addPos`,
mirroring hash-map entry update-or-insert). -/
def lookupP {α : Type} : List (Pair × α) → Pair → Option α
  | [], _ => none
  | e :: rest, p => if e.1 = p then some e.2 else lookupP rest p

/-- `*map.entry(pair).or_insert(0) += d`: update the existing entry or
append a new one. -/
def bump : List (Pair × Int) → Pair → Int → List (Pair × Int)
  | [], p, d => [(p, d)]
  | (q, v) :: rest, p, d =>
    if q = p then (q, v + d) :: rest else (q, v) :: bump rest p d

/-- `AHashSet::insert`: sets are lists up to membership. -/
def insertPos (s : List Nat) (i : Nat) : List Nat := if i ∈ s then s else i :: s

/-- `map.entry(pair).or_insert_with(AHashSet::new).insert(i)`. -/
def addPos : List (Pair × List Nat) → Pair → Nat → List (Pair × List Nat)
  | [], p, i => [(p, [i])]
  | (q, s) :: rest, p, i =>
    if q = p then (q, insertPos s i) :: rest else (q, s) :: addPos rest p i

/-- The inner `for pair in w.pairs()` loop shared by both counting paths
(lib.rs lines 159-165 and 200-206). -/
def scanPairs (c : Int) (i : Nat) (qs : List Pair)
    (acc : List (Pair × Int) × List (Pair × List Nat)) :
    List (Pair × Int) × List (Pair × List Nat) :=
  qs.foldl (fun a q => (bump a.1 q c, addPos a.2 q i)) acc

/-- Per-word step: `if w.ids.len() >= 2 && count != 0 { for pair in
w.pairs() { .. } }` (lib.rs lines 158-166 / 199-207). -/
def scanWord (acc : List (Pair × Int) × List (Pair × List Nat)) (i : Nat)
    (w : List Nat) (c : Int) :
    List (Pair × Int) × List (Pair × List Nat) :=
  if 2 ≤ w.length ∧ c ≠ 0 then scanPairs c i (wordPairs w) acc else acc

/-- Scan of a slice of words starting at global index `i`; `counts` is
indexed globally (`counts[i]` / `counts.get_unchecked(base + offset)`). -/
def countChunk (counts : List Int) : Nat → List (List Nat) →
    List (Pair × Int) × List (Pair × List Nat) →
    List (Pair × Int) × List (Pair × List Nat)
  | _, [], acc => acc
  | i, w :: ws, acc => countChunk counts (i + 1) ws (scanWord acc i w (counts.getD i 0))

/-- `Tokenizer::count_pairs_sequential` (lib.rs lines 191-211). -/
def countPairsSequential (words : List (List Nat)) (counts : List Int) :
    List (Pair × Int) × List (Pair × List Nat) :=
  countChunk counts 0 words ([], [])

/-- Reduction of counts: `*acc.entry(k).or_insert(0) += v` over the second
operand's entries (lib.rs lines 177-180). -/
def mergeCounts (a b : List (Pair × Int)) : List (Pair × Int) :=
  b.foldl (fun acc e => bump acc e.1 e.2) a

/-- Reduction of positions: `acc.entry(k).or_insert_with(..).extend(s)`
(lib.rs lines 181-183). -/
def mergePositions (a b : List (Pair × List Nat)) : List (Pair × List Nat) :=
  b.foldl (fun acc e => e.2.foldl (fun acc2 i => addPos acc2 e.1 i) acc) a

def combineAcc (a b : List (Pair × Int) × List (Pair × List Nat)) :
    List (Pair × Int) × List (Pair × List Nat) :=
  (mergeCounts a.1 b.1, mergePositions a.2 b.2)

/-- `MIN_PARALLEL_WORK` (lib.rs line 18). -/
def MIN_PARALLEL_WORK : Nat := 1000

/-- The chunked path of `count_pairs_parallel` (lib.rs lines 144-186):
`par_chunks(chunk_size)` processes each size-`k` slice from base index
`chunk_idx * chunk_size` into fresh local maps, and the results are reduced
by merging counts and unioning position sets.  Rayon's reduction order is
unspecified and (per the spec) irrelevant; the fold here is one association
of it. -/
def countPairsChunked (k : Nat) (counts : List Int) :
    Nat → List (List Nat) →
    List (Pair × Int) × List (Pair × List Nat)
  | base, ws =>
    if h1 : ws = [] then ([], [])
    else if hk : k = 0 then countChunk counts base ws ([], [])
    else
      combineAcc (countChunk counts base (ws.take k) ([], []))
        (countPairsChunked k counts (base + k) (ws.drop k))
  termination_by base ws => ws.length
  decreasing_by
    simp only [List.length_drop]
    have : ws.length ≠ 0 := fun h0 => h1 (List.length_eq_zero.mp h0)
    omega

/-- `Tokenizer::count_pairs_parallel` (lib.rs lines 131-187): small inputs
take the sequential path; the chunk size `k` abstracts
`(words.len() / (num_threads * 4)).max(PARALLEL_CHUNK_SIZE)`, which is
always positive. -/
def countPairsParallel (k : Nat) (words : List (List Nat))
    (counts : List Int) : List (Pair × Int) × List (Pair × List Nat) :=
  if words.length < MIN_PARALLEL_WORK then countPairsSequential words counts
  else countPairsChunked k counts 0 words

/-- Occurrence-weighted pair count: `Σ c[i] · (number of adjacent
occurrences of p in word i)`, the net effect of the counting loops. -/
def weightedCount (counts : List Int) : Nat → List (List Nat) → Pair → Int
  | _, [], _ => 0
  | i, w :: ws, p =>
    counts.getD i 0 * ((wordPairs w).count p : Int) +
      weightedCount counts (i + 1) ws p

/-- The count the claim asserts: `Σ c[i]` over word indices whose sequence
contains `p` (each containing word counted once). -/
def claimPairCount (counts : List Int) : Nat → List (List Nat) → Pair → Int
  | _, [], _ => 0
  | i, w :: ws, p =>
    (if p ∈ wordPairs w then counts.getD i 0 else 0) +
      claimPairCount counts (i + 1) ws p

/-- Some word of the slice passes the counting guard and contains `p`. -/
def segHits (counts : List Int) (p : Pair) : Nat → List (List Nat) → Prop
  | _, [] => False
  | i, w :: ws =>
    (2 ≤ w.length ∧ counts.getD i 0 ≠ 0 ∧ p ∈ wordPairs w) ∨
      segHits counts p (i + 1) ws

/-- The word at global index `j` of the slice passes the guard and
contains `p`. -/
def segHasIdx (counts : List Int) (p : Pair) (j : Nat) :
    Nat → List (List Nat) → Prop
  | _, [] => False
  | i, w :: ws =>
    (i = j ∧ 2 ≤ w.length ∧ counts.getD i 0 ≠ 0 ∧ p ∈ wordPairs w) ∨
      segHasIdx counts p j (i + 1) ws

theorem lookupP_bump (p : Pair) (d : Int) (r : Pair) (m : List (Pair × Int)) :
    lookupP (bump m p d) r =
      if r = p then some ((lookupP m p).getD 0 + d) else lookupP m r := by
  induction m with
  | nil =>
    by_cases hrp : r = p
    · simp [bump, lookupP, hrp]
    · simp [bump, lookupP, hrp, Ne.symm hrp]
  | cons e rest ih =>
    obtain ⟨q, v⟩ := e
    by_cases hqp : q = p <;> by_cases hqr : q = r
    · subst hqp; subst hqr; simp [bump, lookupP]
    · subst hqp; simp [bump, lookupP, hqr, Ne.symm hqr]
    · subst hqr; simp [bump, lookupP, hqp, Ne.symm hqp]
    · simp [bump, lookupP, hqp, hqr, Ne.symm hqp, Ne.symm hqr, ih]

theorem lookupP_addPos (p : Pair) (i : Nat) (r : Pair)
    (m : List (Pair × List Nat)) :
    lookupP (addPos m p i) r =
      if r = p then some (insertPos ((lookupP m p).getD []) i)
      else lookupP m r := by
  induction m with
  | nil =>
    by_cases hrp : r = p
    · simp [addPos, lookupP, insertPos, hrp]
    · simp [addPos, lookupP, hrp, Ne.symm hrp]
  | cons e rest ih =>
    obtain ⟨q, v⟩ := e
    by_cases hqp : q = p <;> by_cases hqr : q = r
    · subst hqp; subst hqr; simp [addPos, lookupP]
    · subst hqp; simp [addPos, lookupP, hqr, Ne.symm hqr]
    · subst hqr; simp [addPos, lookupP, hqp, Ne.symm hqp]
    · simp [addPos, lookupP, hqp, hqr, Ne.symm hqp, Ne.symm hqr, ih]

theorem mem_insertPos (s : List Nat) (i j : Nat) :
    j ∈ insertPos s i ↔ j = i ∨ j ∈ s := by
  unfold insertPos
  split
  · rename_i hi
    constructor
    · exact Or.inr
    · rintro (rfl | hj) <;> assumption
  · simp

theorem wordPairs_short (w : List Nat) (h : w.length < 2) :
    wordPairs w = [] := by
  match w, h with
  | [], _ => rfl
  | [x], _ => rfl

theorem mem_wordPairs_length (w : List Nat) (p : Pair)
    (h : p ∈ wordPairs w) : 2 ≤ w.length := by
  by_contra hlt
  rw [wordPairs_short w (by omega)] at h
  cases h

theorem scanPairs_count (c : Int) (i : Nat) (r : Pair) :
    ∀ (qs : List Pair) acc,
      (lookupP (scanPairs c i qs acc).1 r).getD 0 =
        (lookupP acc.1 r).getD 0 + c * (qs.count r : Int)
  | [], acc => by simp [scanPairs]
  | q :: qs, acc => by
    have step : scanPairs c i (q :: qs) acc =
        scanPairs c i qs (bump acc.1 q c, addPos acc.2 q i) := rfl
    rw [step, scanPairs_count c i r qs _, lookupP_bump]
    by_cases hrq : r = q
    · rw [if_pos hrq, Option.getD_some, hrq]
      have hc : List.count q (q :: qs) = List.count q qs + 1 := by
        simp [List.count_cons]
      rw [hc]
      push_cast
      ring
    · rw [if_neg hrq]
      have hc : List.count r (q :: qs) = List.count r qs := by
        simp [List.count_cons, hrq]
      rw [hc]

theorem scanPairs_isSome (c : Int) (i : Nat) (r : Pair) :
    ∀ (qs : List Pair) acc,
      (lookupP (scanPairs c i qs acc).1 r).isSome ↔
        (lookupP acc.1 r).isSome ∨ r ∈ qs
  | [], acc => by simp [scanPairs]
  | q :: qs, acc => by
    have step : scanPairs c i (q :: qs) acc =
        scanPairs c i qs (bump acc.1 q c, addPos acc.2 q i) := rfl
    rw [step, scanPairs_isSome c i r qs _]
    by_cases hrq : r = q
    · subst hrq; simp [lookupP_bump] <;> tauto
    · simp [lookupP_bump, hrq] <;> tauto

theorem scanPairs_pos_isSome (c : Int) (i : Nat) (r : Pair) :
    ∀ (qs : List Pair) acc,
      (lookupP (scanPairs c i qs acc).2 r).isSome ↔
        (lookupP acc.2 r).isSome ∨ r ∈ qs
  | [], acc => by simp [scanPairs]
  | q :: qs, acc => by
    have step : scanPairs c i (q :: qs) acc =
        scanPairs c i qs (bump acc.1 q c, addPos acc.2 q i) := rfl
    rw [step, scanPairs_pos_isSome c i r qs _]
    by_cases hrq : r = q
    · subst hrq; simp [lookupP_addPos] <;> tauto
    · simp [lookupP_addPos, hrq] <;> tauto

theorem scanPairs_posMem (c : Int) (i : Nat) (r : Pair) (j : Nat) :
    ∀ (qs : List Pair) acc,
      (j ∈ (lookupP (scanPairs c i qs acc).2 r).getD [] ↔
        j ∈ (lookupP acc.2 r).getD [] ∨ (r ∈ qs ∧ j = i))
  | [], acc => by simp [scanPairs]
  | q :: qs, acc => by
    have step : scanPairs c i (q :: qs) acc =
        scanPairs c i qs (bump acc.1 q c, addPos acc.2 q i) := rfl
    rw [step, scanPairs_posMem c i r j qs _]
    by_cases hrq : r = q
    · subst hrq
      simp [lookupP_addPos, mem_insertPos] <;> tauto
    · simp [lookupP_addPos, hrq] <;> tauto

theorem scanWord_count (acc : List (Pair × Int) × List (Pair × List Nat))
    (i : Nat) (w : List Nat) (c : Int) (r : Pair) :
    (lookupP (scanWord acc i w c).1 r).getD 0 =
      (lookupP acc.1 r).getD 0 + c * ((wordPairs w).count r : Int) := by
  unfold scanWord
  split
  · exact scanPairs_count c i r (wordPairs w) acc
  · rename_i hg
    rcases Decidable.not_and_iff_or_not.mp hg with hlen | hc
    · rw [wordPairs_short w (by omega)]
      simp
    · have hc0 : c = 0 := by
        by_contra h0
        exact hc h0
      simp [hc0]

theorem scanWord_isSome (acc : List (Pair × Int) × List (Pair × List Nat))
    (i : Nat) (w : List Nat) (c : Int) (r : Pair) :
    ((lookupP (scanWord acc i w c).1 r).isSome ↔
      (lookupP acc.1 r).isSome ∨
        (2 ≤ w.length ∧ c ≠ 0 ∧ r ∈ wordPairs w)) ∧
    ((lookupP (scanWord acc i w c).2 r).isSome ↔
      (lookupP acc.2 r).isSome ∨
        (2 ≤ w.length ∧ c ≠ 0 ∧ r ∈ wordPairs w)) := by
  unfold scanWord
  split
  · rename_i hg
    rw [scanPairs_isSome, scanPairs_pos_isSome]
    tauto
  · rename_i hg
    constructor <;> constructor
    · exact Or.inl
    · rintro (h | ⟨h1, h2, h3⟩)
      · exact h
      · exact absurd ⟨h1, h2⟩ hg
    · exact Or.inl
    · rintro (h | ⟨h1, h2, h3⟩)
      · exact h
      · exact absurd ⟨h1, h2⟩ hg

theorem scanWord_posMem (acc : List (Pair × Int) × List (Pair × List Nat))
    (i : Nat) (w : List Nat) (c : Int) (r : Pair) (j : Nat) :
    j ∈ (lookupP (scanWord acc i w c).2 r).getD [] ↔
      j ∈ (lookupP acc.2 r).getD [] ∨
        (2 ≤ w.length ∧ c ≠ 0 ∧ r ∈ wordPairs w ∧ j = i) := by
  unfold scanWord
  split
  · rename_i hg
    rw [scanPairs_posMem]
    tauto
  · rename_i hg
    constructor
    · exact Or.inl
    · rintro (h | ⟨h1, h2, h3, h4⟩)
      · exact h
      · exact absurd ⟨h1, h2⟩ hg

theorem countChunk_count (counts : List Int) (r : Pair) :
    ∀ (ws : List (List Nat)) (i : Nat) acc,
      (lookupP (countChunk counts i ws acc).1 r).getD 0 =
        (lookupP acc.1 r).getD 0 + weightedCount counts i ws r
  | [], i, acc => by simp [countChunk, weightedCount]
  | w :: ws, i, acc => by
    rw [countChunk, countChunk_count counts r ws (i + 1) _, scanWord_count]
    simp only [weightedCount]
    ring

theorem countChunk_isSome1 (counts : List Int) (r : Pair) :
    ∀ (ws : List (List Nat)) (i : Nat) acc,
      (lookupP (countChunk counts i ws acc).1 r).isSome ↔
        (lookupP acc.1 r).isSome ∨ segHits counts r i ws
  | [], i, acc => by simp [countChunk, segHits]
  | w :: ws, i, acc => by
    rw [countChunk, countChunk_isSome1 counts r ws (i + 1) _,
      (scanWord_isSome acc i w (counts.getD i 0) r).1]
    simp only [segHits]
    tauto

theorem countChunk_isSome2 (counts : List Int) (r : Pair) :
    ∀ (ws : List (List Nat)) (i : Nat) acc,
      (lookupP (countChunk counts i ws acc).2 r).isSome ↔
        (lookupP acc.2 r).isSome ∨ segHits counts r i ws
  | [], i, acc => by simp [countChunk, segHits]
  | w :: ws, i, acc => by
    rw [countChunk, countChunk_isSome2 counts r ws (i + 1) _,
      (scanWord_isSome acc i w (counts.getD i 0) r).2]
    simp only [segHits]
    tauto

theorem countChunk_posMem (counts : List Int) (r : Pair) (j : Nat) :
    ∀ (ws : List (List Nat)) (i : Nat) acc,
      j ∈ (lookupP (countChunk counts i ws acc).2 r).getD [] ↔
        j ∈ (lookupP acc.2 r).getD [] ∨ segHasIdx counts r j i ws
  | [], i, acc => by simp [countChunk, segHasIdx]
  | w :: ws, i, acc => by
    rw [countChunk, countChunk_posMem counts r j ws (i + 1) _,
      scanWord_posMem]
    simp only [segHasIdx]
    constructor
    · rintro ((h | ⟨h1, h2, h3, h4⟩) | h)
      · exact Or.inl h
      · exact Or.inr (Or.inl ⟨h4.symm, h1, h2, h3⟩)
      · exact Or.inr (Or.inr h)
    · rintro (h | (⟨h1, h2, h3, h4⟩ | h))
      · exact Or.inl (Or.inl h)
      · exact Or.inl (Or.inr ⟨h2, h3, h4, h1.symm⟩)
      · exact Or.inr h

theorem weightedCount_append (counts : List Int) (r : Pair) :
    ∀ (xs ys : List (List Nat)) (i : Nat),
      weightedCount counts i (xs ++ ys) r =
        weightedCount counts i xs r +
          weightedCount counts (i + xs.length) ys r
  | [], ys, i => by simp [weightedCount]
  | x :: xs, ys, i => by
    simp only [List.cons_append, weightedCount, List.length_cons, List.append_eq]
    rw [weightedCount_append counts r xs ys (i + 1)]
    have h : i + 1 + xs.length = i + (xs.length + 1) := by omega
    rw [h]
    ring

theorem segHits_append (counts : List Int) (r : Pair) :
    ∀ (xs ys : List (List Nat)) (i : Nat),
      segHits counts r i (xs ++ ys) ↔
        segHits counts r i xs ∨ segHits counts r (i + xs.length) ys
  | [], ys, i => by simp [segHits]
  | x :: xs, ys, i => by
    simp only [List.cons_append, segHits, List.length_cons, List.append_eq]
    rw [segHits_append counts r xs ys (i + 1)]
    have h : i + 1 + xs.length = i + (xs.length + 1) := by omega
    rw [h]
    tauto

theorem segHasIdx_append (counts : List Int) (r : Pair) (j : Nat) :
    ∀ (xs ys : List (List Nat)) (i : Nat),
      segHasIdx counts r j i (xs ++ ys) ↔
        segHasIdx counts r j i xs ∨ segHasIdx counts r j (i + xs.length) ys
  | [], ys, i => by simp [segHasIdx]
  | x :: xs, ys, i => by
    simp only [List.cons_append, segHasIdx, List.length_cons, List.append_eq]
    rw [segHasIdx_append counts r j xs ys (i + 1)]
    have h : i + 1 + xs.length = i + (xs.length + 1) := by omega
    rw [h]
    tauto

theorem lookupP_eq_none {α : Type} (m : List (Pair × α)) (p : Pair) :
    lookupP m p = none ↔ p ∉ m.map Prod.fst := by
  induction m with
  | nil => simp [lookupP]
  | cons e rest ih =>
    by_cases he : e.1 = p
    · simp [lookupP, he]
    · simp [lookupP, he, ih, Ne.symm he]

theorem bump_keys (p : Pair) (d : Int) (m : List (Pair × Int)) :
    (bump m p d).map Prod.fst =
      if (lookupP m p).isSome then m.map Prod.fst
      else m.map Prod.fst ++ [p] := by
  induction m with
  | nil => simp [bump, lookupP]
  | cons e rest ih =>
    obtain ⟨q, v⟩ := e
    by_cases hqp : q = p
    · simp [bump, lookupP, hqp]
    · simp only [bump, if_neg hqp, lookupP, List.map_cons, ih]
      by_cases hs : (lookupP rest p).isSome <;> simp [hs, hqp]

theorem addPos_keys (p : Pair) (i : Nat) (m : List (Pair × List Nat)) :
    (addPos m p i).map Prod.fst =
      if (lookupP m p).isSome then m.map Prod.fst
      else m.map Prod.fst ++ [p] := by
  induction m with
  | nil => simp [addPos, lookupP]
  | cons e rest ih =>
    obtain ⟨q, v⟩ := e
    by_cases hqp : q = p
    · simp [addPos, lookupP, hqp]
    · simp only [addPos, if_neg hqp, lookupP, List.map_cons, ih]
      by_cases hs : (lookupP rest p).isSome <;> simp [hs, hqp]

theorem nodup_keys_append_single {α : Type} (ks : List α) (p : α)
    (hn : ks.Nodup) (hp : p ∉ ks) : (ks ++ [p]).Nodup := by
  simp [List.nodup_append, hn, hp]

theorem bump_nodup (p : Pair) (d : Int) (m : List (Pair × Int))
    (hn : (m.map Prod.fst).Nodup) :
    ((bump m p d).map Prod.fst).Nodup := by
  rw [bump_keys]
  split
  · exact hn
  · rename_i hs
    refine nodup_keys_append_single _ _ hn ?_
    rw [← lookupP_eq_none]
    cases hl : lookupP m p
    · rfl
    · rw [hl] at hs; simp at hs

theorem addPos_nodup (p : Pair) (i : Nat) (m : List (Pair × List Nat))
    (hn : (m.map Prod.fst).Nodup) :
    ((addPos m p i).map Prod.fst).Nodup := by
  rw [addPos_keys]
  split
  · exact hn
  · rename_i hs
    refine nodup_keys_append_single _ _ hn ?_
    rw [← lookupP_eq_none]
    cases hl : lookupP m p
    · rfl
    · rw [hl] at hs; simp at hs

/-- Every value stored in a position map is a nonempty index set. -/
def posValsNonempty (m : List (Pair × List Nat)) : Prop :=
  ∀ e ∈ m, e.2 ≠ []

theorem insertPos_ne_nil (s : List Nat) (i : Nat) : insertPos s i ≠ [] := by
  unfold insertPos
  split
  · intro h
    rename_i hi
    rw [h] at hi
    cases hi
  · simp

theorem addPos_posVals (p : Pair) (i : Nat) (m : List (Pair × List Nat))
    (hv : posValsNonempty m) : posValsNonempty (addPos m p i) := by
  induction m with
  | nil =>
    intro e he
    simp [addPos] at he
    rw [he]
    simp
  | cons f rest ih =>
    obtain ⟨q, s⟩ := f
    by_cases hqp : q = p
    · intro e he
      simp only [addPos, if_pos hqp] at he
      rcases List.mem_cons.mp he with rfl | hr
      · exact insertPos_ne_nil s i
      · exact hv e (List.mem_cons_of_mem _ hr)
    · intro e he
      simp only [addPos, if_neg hqp] at he
      rcases List.mem_cons.mp he with rfl | hr
      · exact hv (q, s) (List.mem_cons_self _ _)
      · exact ih (fun f hf => hv f (List.mem_cons_of_mem _ hf)) e hr

theorem scanPairs_nodup (c : Int) (i : Nat) :
    ∀ (qs : List Pair) acc,
      ((acc.1.map Prod.fst).Nodup → ((scanPairs c i qs acc).1.map Prod.fst).Nodup) ∧
      ((acc.2.map Prod.fst).Nodup → ((scanPairs c i qs acc).2.map Prod.fst).Nodup) ∧
      (posValsNonempty acc.2 → posValsNonempty (scanPairs c i qs acc).2)
  | [], acc => ⟨id, id, id⟩
  | q :: qs, acc => by
    have step : scanPairs c i (q :: qs) acc =
        scanPairs c i qs (bump acc.1 q c, addPos acc.2 q i) := rfl
    rw [step]
    obtain ⟨ih1, ih2, ih3⟩ := scanPairs_nodup c i qs (bump acc.1 q c, addPos acc.2 q i)
    exact ⟨fun h => ih1 (bump_nodup q c acc.1 h),
      fun h => ih2 (addPos_nodup q i acc.2 h),
      fun h => ih3 (addPos_posVals q i acc.2 h)⟩

theorem scanWord_nodup (acc : List (Pair × Int) × List (Pair × List Nat))
    (i : Nat) (w : List Nat) (c : Int) :
    ((acc.1.map Prod.fst).Nodup → ((scanWord acc i w c).1.map Prod.fst).Nodup) ∧
    ((acc.2.map Prod.fst).Nodup → ((scanWord acc i w c).2.map Prod.fst).Nodup) ∧
    (posValsNonempty acc.2 → posValsNonempty (scanWord acc i w c).2) := by
  unfold scanWord
  split
  · exact scanPairs_nodup c i (wordPairs w) acc
  · exact ⟨id, id, id⟩

theorem countChunk_nodup (counts : List Int) :
    ∀ (ws : List (List Nat)) (i : Nat) acc,
      ((acc.1.map Prod.fst).Nodup →
        (((countChunk counts i ws acc).1.map Prod.fst).Nodup)) ∧
      ((acc.2.map Prod.fst).Nodup →
        (((countChunk counts i ws acc).2.map Prod.fst).Nodup)) ∧
      (posValsNonempty acc.2 → posValsNonempty (countChunk counts i ws acc).2)
  | [], i, acc => ⟨id, id, id⟩
  | w :: ws, i, acc => by
    rw [countChunk]
    obtain ⟨ih1, ih2, ih3⟩ := countChunk_nodup counts ws (i + 1)
      (scanWord acc i w (counts.getD i 0))
    obtain ⟨h1, h2, h3⟩ := scanWord_nodup acc i w (counts.getD i 0)
    exact ⟨fun h => ih1 (h1 h), fun h => ih2 (h2 h), fun h => ih3 (h3 h)⟩

theorem mergeCounts_getD (r : Pair) :
    ∀ (b a : List (Pair × Int)), (b.map Prod.fst).Nodup →
      (lookupP (mergeCounts a b) r).getD 0 =
        (lookupP a r).getD 0 + (lookupP b r).getD 0
  | [], a, _ => by simp [mergeCounts, lookupP]
  | (q, v) :: rest, a, hn => by
    have step : mergeCounts a ((q, v) :: rest) =
        mergeCounts (bump a q v) rest := rfl
    rw [List.map_cons] at hn
    obtain ⟨hq, hrest⟩ := List.nodup_cons.mp hn
    rw [step, mergeCounts_getD r rest (bump a q v) hrest, lookupP_bump]
    by_cases hrq : r = q
    · rw [if_pos hrq, Option.getD_some]
      have h1 : lookupP ((q, v) :: rest) r = some v := by
        simp [lookupP, hrq.symm]
      have h2 : lookupP rest r = none := by
        rw [lookupP_eq_none, hrq]
        exact hq
      rw [h1, h2, hrq]
      simp
    · have h1 : lookupP ((q, v) :: rest) r = lookupP rest r := by
        simp [lookupP, Ne.symm hrq]
      rw [if_neg hrq, h1]

theorem mergeCounts_isSome (r : Pair) :
    ∀ (b a : List (Pair × Int)),
      (lookupP (mergeCounts a b) r).isSome ↔
        (lookupP a r).isSome ∨ (lookupP b r).isSome
  | [], a => by simp [mergeCounts, lookupP]
  | (q, v) :: rest, a => by
    have step : mergeCounts a ((q, v) :: rest) =
        mergeCounts (bump a q v) rest := rfl
    rw [step, mergeCounts_isSome r rest (bump a q v)]
    by_cases hrq : r = q
    · simp [lookupP_bump, lookupP, hrq] <;> tauto
    · simp [lookupP_bump, lookupP, hrq, Ne.symm hrq] <;> tauto

theorem mergeCounts_nodup :
    ∀ (b a : List (Pair × Int)), (a.map Prod.fst).Nodup →
      ((mergeCounts a b).map Prod.fst).Nodup
  | [], a, h => h
  | (q, v) :: rest, a, h =>
    mergeCounts_nodup rest (bump a q v) (bump_nodup q v a h)

theorem addPosFold_mem (q r : Pair) (j : Nat) :
    ∀ (s : List Nat) (a : List (Pair × List Nat)),
      j ∈ (lookupP (s.foldl (fun acc2 i => addPos acc2 q i) a) r).getD [] ↔
        j ∈ (lookupP a r).getD [] ∨ (r = q ∧ j ∈ s)
  | [], a => by simp
  | i :: s, a => by
    have step : (i :: s).foldl (fun acc2 i2 => addPos acc2 q i2) a =
        s.foldl (fun acc2 i2 => addPos acc2 q i2) (addPos a q i) := rfl
    rw [step, addPosFold_mem q r j s (addPos a q i)]
    by_cases hrq : r = q
    · simp [lookupP_addPos, hrq, mem_insertPos] <;> tauto
    · simp [lookupP_addPos, hrq] <;> tauto

theorem addPosFold_isSome (q r : Pair) :
    ∀ (s : List Nat) (a : List (Pair × List Nat)),
      (lookupP (s.foldl (fun acc2 i => addPos acc2 q i) a) r).isSome ↔
        (lookupP a r).isSome ∨ (r = q ∧ s ≠ [])
  | [], a => by simp
  | i :: s, a => by
    have step : (i :: s).foldl (fun acc2 i2 => addPos acc2 q i2) a =
        s.foldl (fun acc2 i2 => addPos acc2 q i2) (addPos a q i) := rfl
    rw [step, addPosFold_isSome q r s (addPos a q i)]
    by_cases hrq : r = q
    · simp [lookupP_addPos, hrq] <;> tauto
    · simp [lookupP_addPos, hrq] <;> tauto

theorem addPosFold_nodup (q : Pair) :
    ∀ (s : List Nat) (a : List (Pair × List Nat)),
      (a.map Prod.fst).Nodup →
      (((s.foldl (fun acc2 i => addPos acc2 q i) a).map Prod.fst).Nodup)
  | [], a, h => h
  | i :: s, a, h =>
    addPosFold_nodup q s (addPos a q i) (addPos_nodup q i a h)

theorem addPosFold_posVals (q : Pair) :
    ∀ (s : List Nat) (a : List (Pair × List Nat)),
      posValsNonempty a →
      posValsNonempty (s.foldl (fun acc2 i => addPos acc2 q i) a)
  | [], a, h => h
  | i :: s, a, h =>
    addPosFold_posVals q s (addPos a q i) (addPos_posVals q i a h)

theorem mergePositions_mem (r : Pair) (j : Nat) :
    ∀ (b a : List (Pair × List Nat)), (b.map Prod.fst).Nodup →
      (j ∈ (lookupP (mergePositions a b) r).getD [] ↔
        j ∈ (lookupP a r).getD [] ∨ j ∈ (lookupP b r).getD [])
  | [], a, _ => by simp [mergePositions, lookupP]
  | (q, s) :: rest, a, hn => by
    have step : mergePositions a ((q, s) :: rest) =
        mergePositions (s.foldl (fun acc2 i => addPos acc2 q i) a) rest := rfl
    rw [List.map_cons] at hn
    obtain ⟨hq, hrest⟩ := List.nodup_cons.mp hn
    rw [step, mergePositions_mem r j rest _ hrest, addPosFold_mem]
    by_cases hrq : r = q
    · have h1 : lookupP ((q, s) :: rest) r = some s := by
        simp [lookupP, hrq.symm]
      have h2 : lookupP rest r = none := by
        rw [lookupP_eq_none, hrq]
        exact hq
      rw [h1, h2]
      simp [hrq] <;> tauto
    · have h1 : lookupP ((q, s) :: rest) r = lookupP rest r := by
        simp [lookupP, Ne.symm hrq]
      rw [h1]
      simp [hrq]

theorem mergePositions_isSome (r : Pair) :
    ∀ (b a : List (Pair × List Nat)), (b.map Prod.fst).Nodup →
      posValsNonempty b →
      ((lookupP (mergePositions a b) r).isSome ↔
        (lookupP a r).isSome ∨ (lookupP b r).isSome)
  | [], a, _, _ => by simp [mergePositions, lookupP]
  | (q, s) :: rest, a, hn, hv => by
    have step : mergePositions a ((q, s) :: rest) =
        mergePositions (s.foldl (fun acc2 i => addPos acc2 q i) a) rest := rfl
    rw [List.map_cons] at hn
    obtain ⟨hq, hrest⟩ := List.nodup_cons.mp hn
    have hs : s ≠ [] := hv (q, s) (List.mem_cons_self _ _)
    rw [step, mergePositions_isSome r rest _ hrest
      (fun e he => hv e (List.mem_cons_of_mem _ he)), addPosFold_isSome]
    by_cases hrq : r = q
    · have h1 : lookupP ((q, s) :: rest) r = some s := by
        simp [lookupP, hrq.symm]
      rw [h1]
      simp [hrq, hs]
    · have h1 : lookupP ((q, s) :: rest) r = lookupP rest r := by
        simp [lookupP, Ne.symm hrq]
      rw [h1]
      simp [hrq]

theorem mergePositions_nodup :
    ∀ (b a : List (Pair × List Nat)), (a.map Prod.fst).Nodup →
      ((mergePositions a b).map Prod.fst).Nodup
  | [], a, h => h
  | (q, s) :: rest, a, h =>
    mergePositions_nodup rest _ (addPosFold_nodup q s a h)

theorem mergePositions_posVals :
    ∀ (b a : List (Pair × List Nat)), posValsNonempty a →
      posValsNonempty (mergePositions a b)
  | [], a, h => h
  | (q, s) :: rest, a, h =>
    mergePositions_posVals rest _ (addPosFold_posVals q s a h)

theorem weightedCount_basefix (counts : List Int) (r : Pair) (k base : Nat)
    (ws : List (List Nat)) :
    weightedCount counts (base + (ws.take k).length) (ws.drop k) r =
      weightedCount counts (base + k) (ws.drop k) r := by
  by_cases hkl : k ≤ ws.length
  · rw [List.length_take, min_eq_left hkl]
  · have hd : ws.drop k = [] := List.drop_eq_nil_of_le (by omega)
    rw [hd]
    simp [weightedCount]

theorem segHits_basefix (counts : List Int) (r : Pair) (k base : Nat)
    (ws : List (List Nat)) :
    segHits counts r (base + (ws.take k).length) (ws.drop k) ↔
      segHits counts r (base + k) (ws.drop k) := by
  by_cases hkl : k ≤ ws.length
  · rw [List.length_take, min_eq_left hkl]
  · have hd : ws.drop k = [] := List.drop_eq_nil_of_le (by omega)
    rw [hd]
    simp [segHits]

theorem segHasIdx_basefix (counts : List Int) (r : Pair) (j k base : Nat)
    (ws : List (List Nat)) :
    segHasIdx counts r j (base + (ws.take k).length) (ws.drop k) ↔
      segHasIdx counts r j (base + k) (ws.drop k) := by
  by_cases hkl : k ≤ ws.length
  · rw [List.length_take, min_eq_left hkl]
  · have hd : ws.drop k = [] := List.drop_eq_nil_of_le (by omega)
    rw [hd]
    simp [segHasIdx]

theorem countPairsChunked_props (k : Nat) (hk : k ≠ 0) (counts : List Int)
    (r : Pair) (j : Nat) :
    ∀ (n : Nat) (ws : List (List Nat)) (base : Nat), ws.length ≤ n →
      (((countPairsChunked k counts base ws).1.map Prod.fst).Nodup) ∧
      (((countPairsChunked k counts base ws).2.map Prod.fst).Nodup) ∧
      posValsNonempty (countPairsChunked k counts base ws).2 ∧
      ((lookupP (countPairsChunked k counts base ws).1 r).getD 0 =
        weightedCount counts base ws r) ∧
      ((lookupP (countPairsChunked k counts base ws).1 r).isSome ↔
        segHits counts r base ws) ∧
      (j ∈ (lookupP (countPairsChunked k counts base ws).2 r).getD [] ↔
        segHasIdx counts r j base ws) ∧
      ((lookupP (countPairsChunked k counts base ws).2 r).isSome ↔
        segHits counts r base ws) := by
  intro n
  induction n with
  | zero =>
    intro ws base hlen
    have hws : ws = [] := List.length_eq_zero.mp (Nat.le_zero.mp hlen)
    subst hws
    rw [countPairsChunked]
    simp [lookupP, weightedCount, segHits, segHasIdx, posValsNonempty]
  | succ n ih =>
    intro ws base hlen
    by_cases hws : ws = []
    · subst hws
      rw [countPairsChunked]
      simp [lookupP, weightedCount, segHits, segHasIdx, posValsNonempty]
    · rw [countPairsChunked, dif_neg hws, dif_neg hk]
      simp only [combineAcc]
      have hdroplen : (ws.drop k).length ≤ n := by
        rw [List.length_drop]
        have hne : ws.length ≠ 0 := fun h0 => hws (List.length_eq_zero.mp h0)
        omega
      obtain ⟨bn1, bn2, bp, bval, bpres, bmem, bpres2⟩ :=
        ih (ws.drop k) (base + k) hdroplen
      have hA1 := (countChunk_nodup counts (ws.take k) base ([], [])).1
        (by simp)
      have hA2 := (countChunk_nodup counts (ws.take k) base ([], [])).2.1
        (by simp)
      have hA3 := (countChunk_nodup counts (ws.take k) base ([], [])).2.2
        (by intro e he; cases he)
      have hAval : (lookupP (countChunk counts base (ws.take k) ([], [])).1
          r).getD 0 = weightedCount counts base (ws.take k) r := by
        rw [countChunk_count]
        simp [lookupP]
      have hApres : (lookupP (countChunk counts base (ws.take k) ([], [])).1
          r).isSome ↔ segHits counts r base (ws.take k) := by
        rw [countChunk_isSome1]
        simp [lookupP]
      have hApres2 : (lookupP (countChunk counts base (ws.take k) ([], [])).2
          r).isSome ↔ segHits counts r base (ws.take k) := by
        rw [countChunk_isSome2]
        simp [lookupP]
      have hAmem : (j ∈ (lookupP (countChunk counts base (ws.take k)
          ([], [])).2 r).getD []) ↔ segHasIdx counts r j base (ws.take k) := by
        rw [countChunk_posMem]
        simp [lookupP]
      have happ := weightedCount_append counts r (ws.take k) (ws.drop k) base
      rw [List.take_append_drop] at happ
      have hsegs := segHits_append counts r (ws.take k) (ws.drop k) base
      rw [List.take_append_drop] at hsegs
      have hsegi := segHasIdx_append counts r j (ws.take k) (ws.drop k) base
      rw [List.take_append_drop] at hsegi
      refine ⟨?_, ?_, ?_, ?_, ?_, ?_, ?_⟩
      · exact mergeCounts_nodup _ _ hA1
      · exact mergePositions_nodup _ _ hA2
      · exact mergePositions_posVals _ _ hA3
      · rw [mergeCounts_getD r _ _ bn1, hAval, bval, happ,
          weightedCount_basefix]
      · rw [mergeCounts_isSome r _ _, hApres, bpres, hsegs,
          segHits_basefix]
      · rw [mergePositions_mem r j _ _ bn2, hAmem, bmem, hsegi,
          segHasIdx_basefix]
      · rw [mergePositions_isSome r _ _ bn2 bp, hApres2, bpres2, hsegs,
          segHits_basefix]

theorem segHits_exists (counts : List Int) (p : Pair) :
    ∀ (ws : List (List Nat)) (i0 : Nat),
      (∀ off, off < ws.length → counts.getD (i0 + off) 0 ≠ 0) →
      (segHits counts p i0 ws ↔
        ∃ off, off < ws.length ∧ p ∈ wordPairs (ws.getD off []))
  | [], i0, _ => by simp [segHits]
  | w :: ws, i0, ho => by
    have ho' : ∀ off, off < ws.length → counts.getD (i0 + 1 + off) 0 ≠ 0 := by
      intro off hoff
      have h := ho (off + 1) (by simp; omega)
      rwa [show i0 + (off + 1) = i0 + 1 + off by omega] at h
    simp only [segHits]
    rw [segHits_exists counts p ws (i0 + 1) ho']
    constructor
    · rintro (⟨h1, h2, h3⟩ | ⟨off, hoff, hmem⟩)
      · exact ⟨0, by simp, by simpa using h3⟩
      · exact ⟨off + 1, by simp; omega, by simpa using hmem⟩
    · rintro ⟨off, hoff, hmem⟩
      cases off with
      | zero =>
        left
        refine ⟨mem_wordPairs_length _ _ (by simpa using hmem), ?_,
          by simpa using hmem⟩
        have h := ho 0 (by simp)
        simpa using h
      | succ o =>
        right
        exact ⟨o, by simp at hoff; omega, by simpa using hmem⟩

theorem segHasIdx_exact (counts : List Int) (p : Pair) (j : Nat) :
    ∀ (ws : List (List Nat)) (i0 : Nat),
      (∀ off, off < ws.length → counts.getD (i0 + off) 0 ≠ 0) →
      (segHasIdx counts p j i0 ws ↔
        ∃ off, off < ws.length ∧ i0 + off = j ∧
          p ∈ wordPairs (ws.getD off []))
  | [], i0, _ => by simp [segHasIdx]
  | w :: ws, i0, ho => by
    have ho' : ∀ off, off < ws.length → counts.getD (i0 + 1 + off) 0 ≠ 0 := by
      intro off hoff
      have h := ho (off + 1) (by simp; omega)
      rwa [show i0 + (off + 1) = i0 + 1 + off by omega] at h
    simp only [segHasIdx]
    rw [segHasIdx_exact counts p j ws (i0 + 1) ho']
    constructor
    · rintro (⟨h1, h2, h3, h4⟩ | ⟨off, hoff, heq, hmem⟩)
      · exact ⟨0, by simp, by simpa using h1, by simpa using h4⟩
      · exact ⟨off + 1, by simp; omega,
          by rw [show i0 + (off + 1) = i0 + 1 + off by omega]; exact heq,
          by simpa using hmem⟩
    · rintro ⟨off, hoff, heq, hmem⟩
      cases off with
      | zero =>
        left
        refine ⟨by simpa using heq,
          mem_wordPairs_length _ _ (by simpa using hmem), ?_,
          by simpa using hmem⟩
        have h := ho 0 (by simp)
        simpa using h
      | succ o =>
        right
        exact ⟨o, by simp at hoff; omega,
          by rw [show i0 + 1 + o = i0 + (o + 1) by omega]; exact heq,
          by simpa using hmem⟩

theorem optionInt_ext (o1 o2 : Option Int)
    (h1 : o1.isSome ↔ o2.isSome) (h2 : o1.getD 0 = o2.getD 0) : o1 = o2 := by
  cases o1 <;> cases o2 <;> simp_all

theorem countPairsSequential_count (words : List (List Nat))
    (counts : List Int) (r : Pair) :
    (lookupP (countPairsSequential words counts).1 r).getD 0 =
      weightedCount counts 0 words r := by
  rw [countPairsSequential, countChunk_count]
  simp [lookupP]

theorem countPairsSequential_isSome (words : List (List Nat))
    (counts : List Int) (r : Pair) :
    ((lookupP (countPairsSequential words counts).1 r).isSome ↔
      segHits counts r 0 words) ∧
    ((lookupP (countPairsSequential words counts).2 r).isSome ↔
      segHits counts r 0 words) := by
  constructor
  · rw [countPairsSequential, countChunk_isSome1]
    simp [lookupP]
  · rw [countPairsSequential, countChunk_isSome2]
    simp [lookupP]

theorem countPairsSequential_posMem (words : List (List Nat))
    (counts : List Int) (r : Pair) (j : Nat) :
    j ∈ (lookupP (countPairsSequential words counts).2 r).getD [] ↔
      segHasIdx counts r j 0 words := by
  rw [countPairsSequential, countChunk_posMem]
  simp [lookupP]

/-- C3 counterexample: on the single word `[97, 97, 97]` with multiplicity
1, the pair `(97, 97)` occurs twice, so the built `pair_count` entry is 2
(one addition per adjacent occurrence), while the claimed formula
"sum of c[i] over the word indices whose sequence contains p" gives 1.
With one word the parallel entry point takes the very same sequential
path. -/
theorem claim3_cex :
    (lookupP (countPairsSequential [[97, 97, 97]] [1]).1 (97, 97)).getD 0 =
      2 ∧
    countPairsParallel 256 [[97, 97, 97]] [1] =
      countPairsSequential [[97, 97, 97]] [1] ∧
    claimPairCount [1] 0 [[97, 97, 97]] (97, 97) = 1 ∧
    ((2 : Int) ≠ 1) :=
  ⟨by decide, rfl, by decide, by decide⟩

/-- C3 (amended: within a single word, a pair occurring several times
contributes the word's multiplicity once per adjacent occurrence, so
`pair_count[p] = Σ c[i] · occ_p(word i)` rather than `Σ c[i]` over
containing words; the rest of the claim is as stated): for strictly
positive multiplicities, the sequential path and the chunked parallel path
(any chunk size ≥ 1, any reduction association) build equal maps; the
count entry for `p` equals the occurrence-weighted sum; an entry exists
exactly for the pairs occurring in some word; and `pair_positions[p]` is
exactly the set of word indices whose sequence contains `p`. -/
theorem claim3_pair_index (k : Nat) (words : List (List Nat))
    (counts : List Int) (hk : k ≠ 0) (hlen : counts.length = words.length)
    (hpos : ∀ c ∈ counts, 0 < c) (p : Pair) (j : Nat) :
    (lookupP (countPairsSequential words counts).1 p =
      lookupP (countPairsChunked k counts 0 words).1 p) ∧
    (j ∈ (lookupP (countPairsSequential words counts).2 p).getD [] ↔
      j ∈ (lookupP (countPairsChunked k counts 0 words).2 p).getD []) ∧
    ((lookupP (countPairsSequential words counts).1 p).getD 0 =
      weightedCount counts 0 words p) ∧
    ((lookupP (countPairsSequential words counts).1 p).isSome ↔
      ∃ i, i < words.length ∧ p ∈ wordPairs (words.getD i [])) ∧
    (j ∈ (lookupP (countPairsSequential words counts).2 p).getD [] ↔
      j < words.length ∧ p ∈ wordPairs (words.getD j [])) ∧
    ((lookupP (countPairsSequential words counts).2 p).isSome ↔
      ∃ i, i < words.length ∧ p ∈ wordPairs (words.getD i [])) ∧
    (countPairsParallel k words counts =
      if words.length < MIN_PARALLEL_WORK then
        countPairsSequential words counts
      else countPairsChunked k counts 0 words) := by
  have ho : ∀ off, off < words.length → counts.getD (0 + off) 0 ≠ 0 := by
    intro off hoff
    have hoc : off < counts.length := by omega
    have hm : counts.getD off 0 ∈ counts := by
      rw [List.getD_eq_getElem counts 0 hoc]
      exact List.getElem_mem hoc
    have := hpos _ hm
    rw [Nat.zero_add]
    omega
  obtain ⟨cn1, cn2, cp, cval, cpres, cmem, cpres2⟩ :=
    countPairsChunked_props k hk counts p j words.length words 0
      (le_refl _)
  have sval := countPairsSequential_count words counts p
  have spres := countPairsSequential_isSome words counts p
  have smem := countPairsSequential_posMem words counts p j
  have hbr := segHits_exists counts p words 0 ho
  have hbi := segHasIdx_exact counts p j words 0 ho
  refine ⟨?_, ?_, sval, ?_, ?_, ?_, rfl⟩
  · refine optionInt_ext _ _ ?_ ?_
    · rw [spres.1, cpres]
    · rw [sval, cval]
  · rw [smem, cmem]
  · rw [spres.1, hbr]
  · rw [smem, hbi]
    constructor
    · rintro ⟨off, hoff, heq, hmem⟩
      rw [Nat.zero_add] at heq
      subst heq
      exact ⟨hoff, hmem⟩
    · rintro ⟨hj, hmem⟩
      exact ⟨j, hj, by omega, hmem⟩
  · rw [spres.2, hbr]

/-- C3 witness: the amended contract applied to a one-word corpus. -/
theorem claim3_witness :
    (lookupP (countPairsSequential [[97, 98]] [1]).1 (97, 98) =
      lookupP (countPairsChunked 1 [1] 0 [[97, 98]]).1 (97, 98)) ∧
    ((lookupP (countPairsSequential [[97, 98]] [1]).1 (97, 98)).getD 0 =
      weightedCount [1] 0 [[97, 98]] (97, 98)) := by
  obtain ⟨h1, _, h3, _⟩ :=
    claim3_pair_index 1 [[97, 98]] [1] (by decide) (by decide)
      (by decide) (97, 98) 0
  exact ⟨h1, h3⟩

/-! ## Training (lib.rs lines 88-118 and 213-295) -/

/-- `MergeJob` (lib.rs lines 89-94): pair, cached `u64` count, and the
position snapshot (an `AHashSet<usize>`, modelled up to membership). -/
structure MergeJob where
  pair : Pair
  count : Nat
  pos : List Nat
deriving DecidableEq

/-- Rust tuple comparison `(u32, u32)::cmp`: lexicographic. -/
def pairCmp (p q : Pair) : Ordering :=
  match compare p.1 q.1 with
  | Ordering.eq => compare p.2 q.2
  | o => o

/-- `impl Ord for MergeJob` (lib.rs lines 110-118): by count, ties broken
by the pair comparison *inverted* (`other.pair.cmp(&self.pair)`). -/
def jobCmp (x y : MergeJob) : Ordering :=
  match compare x.count y.count with
  | Ordering.eq => pairCmp y.pair x.pair
  | o => o

/-- `OctonaryHeap::pop`: remove a maximal element under `jobCmp`.  The real
heap's choice among `jobCmp`-equal elements is unspecified; this model
fixes one. -/
def popMax : List MergeJob → Option (MergeJob × List MergeJob)
  | [] => none
  | j :: rest =>
    match popMax rest with
    | none => some (j, [])
    | some (m, r) =>
      if jobCmp j m = Ordering.lt then some (m, j :: r) else some (j, rest)

/-- The Rust cast `i32 as u64` (sign-extension then reinterpretation):
the value modulo `2^64`. -/
def toU64 (v : Int) : Nat := (v % (2 ^ 64 : Int)).toNat

def lookInt (m : List (Pair × Int)) (p : Pair) : Int := (lookupP m p).getD 0

/-- The mutable state of `train_core` (lib.rs lines 214-295): the word
array, `pair_counts`, the heap, the merge table in insertion order, and
`merges_done`. -/
structure TrainState where
  words : List (List Nat)
  pc : List (Pair × Int)
  heap : List MergeJob
  merges : List (Pair × Nat)
  done : Nat
deriving DecidableEq

/-- The `for (pair, delta) in changes` loop (lib.rs lines 267-277):
`pair_counts[pair] += delta * word_count`, and positive deltas record the
word index in `local_updates`. -/
def applyDeltas (wc : Int) (wIdx : Nat) :
    List (Pair × Int) → List (Pair × Int) × List (Pair × List Nat) →
    List (Pair × Int) × List (Pair × List Nat)
  | [], st => st
  | (q, d) :: ds, (pc, lu) =>
    applyDeltas wc wIdx ds
      (bump pc q (d * wc), if 0 < d then addPos lu q wIdx else lu)

/-- One iteration of `for &word_idx in &top.pos` (lib.rs lines 263-278). -/
def applyMergeAt (counts : List Int) (p : Pair) (newId : Nat)
    (st : List (List Nat) × List (Pair × Int) × List (Pair × List Nat))
    (wIdx : Nat) :
    List (List Nat) × List (Pair × Int) × List (Pair × List Nat) :=
  let res := mergePair (st.1.getD wIdx []) p newId
  let upd := applyDeltas (counts.getD wIdx 0) wIdx res.2 (st.2.1, st.2.2)
  (st.1.set wIdx res.1, upd.1, upd.2)

/-- Update of all words in the popped snapshot, with `local_updates`
starting cleared (lib.rs lines 260-278). -/
def applyMerges (counts : List Int) (p : Pair) (newId : Nat)
    (posList : List Nat) (words : List (List Nat))
    (pc : List (Pair × Int)) :
    List (List Nat) × List (Pair × Int) × List (Pair × List Nat) :=
  posList.foldl (applyMergeAt counts p newId) (words, pc, [])

/-- `for (pair, pos) in local_updates.drain()` (lib.rs lines 281-291) and
the initial heap build (lines 223-233): push a job with the live count
(cast to `u64`) for every entry whose live count is positive. -/
def pushJobs (pc : List (Pair × Int)) (lu : List (Pair × List Nat))
    (heap : List MergeJob) : List MergeJob :=
  lu.foldl
    (fun h e =>
      if 0 < lookInt pc e.1 then
        ⟨e.1, toU64 (lookInt pc e.1), e.2⟩ :: h
      else h)
    heap

def buildHeap (pc : List (Pair × Int)) (wtu : List (Pair × List Nat)) :
    List MergeJob :=
  pushJobs pc wtu []

/-- Result of one pass through the body of the `while merges_done <
num_merges` loop: either the loop exits (`halt`) or continues with the new
state (`cont`). -/
inductive StepRes where
  | halt (s : TrainState)
  | cont (s : TrainState)
deriving DecidableEq

/-- One iteration of the training loop (lib.rs lines 242-294): pop; on a
stale cached count re-push with the live count (when positive) or discard;
otherwise record the merge `pair -> 256 + merges_done`, apply it to the
snapshot words, propagate deltas, and push the updated pairs. -/
def trainStep (numMerges : Nat) (counts : List Int) (s : TrainState) :
    StepRes :=
  if s.done < numMerges then
    match popMax s.heap with
    | none => StepRes.halt s
    | some (top, rest) =>
      let current := lookInt s.pc top.pair
      if top.count ≠ toU64 current then
        if 0 < current then
          StepRes.cont { s with heap := ⟨top.pair, toU64 current, top.pos⟩ :: rest }
        else
          StepRes.cont { s with heap := rest }
      else
        let newId := 256 + s.done
        let app := applyMerges counts top.pair newId top.pos s.words s.pc
        StepRes.cont
          { words := app.1, pc := app.2.1,
            heap := pushJobs app.2.1 app.2.2 rest,
            merges := s.merges ++ [(top.pair, newId)],
            done := s.done + 1 }
  else StepRes.halt s

/-- A heap entry whose cached count differs from the live count. -/
def staleJob (pc : List (Pair × Int)) (j : MergeJob) : Prop :=
  j.count ≠ toU64 (lookInt pc j.pair)

instance (pc : List (Pair × Int)) (j : MergeJob) :
    Decidable (staleJob pc j) := by
  unfold staleJob
  infer_instance

def staleCount (pc : List (Pair × Int)) (heap : List MergeJob) : Nat :=
  (heap.filter (fun j => decide (staleJob pc j))).length

theorem popMax_eq_none (l : List MergeJob) : popMax l = none ↔ l = [] := by
  cases l with
  | nil => simp [popMax]
  | cons j rest =>
    simp only [popMax]
    constructor
    · rcases hp : popMax rest with _ | ⟨m, r⟩
      · intro h
        cases h
      · change (if jobCmp j m = Ordering.lt then some (m, j :: r)
            else some (j, rest)) = none → j :: rest = []
        by_cases hc : jobCmp j m = Ordering.lt
        · rw [if_pos hc]
          intro h
          cases h
        · rw [if_neg hc]
          intro h
          cases h
    · intro h
      cases h

theorem popMax_perm (l : List MergeJob) :
    ∀ (t : MergeJob) (r : List MergeJob),
      popMax l = some (t, r) → l.Perm (t :: r) := by
  induction l with
  | nil => intro t r h; cases h
  | cons j rest ih =>
    intro t r
    simp only [popMax]
    rcases hp : popMax rest with _ | ⟨m, r2⟩
    · intro h
      obtain ⟨rfl, rfl⟩ : j = t ∧ ([] : List MergeJob) = r := by
        injection h with h2
        injection h2 with ha hb
        exact ⟨ha, hb⟩
      have hrest : rest = [] := (popMax_eq_none rest).mp hp
      rw [hrest]
    · change (if jobCmp j m = Ordering.lt then some (m, j :: r2)
          else some (j, rest)) = some (t, r) → (j :: rest).Perm (t :: r)
      by_cases hc : jobCmp j m = Ordering.lt
      · rw [if_pos hc]
        intro h
        obtain ⟨rfl, rfl⟩ : m = t ∧ j :: r2 = r := by
          injection h with h2
          injection h2 with ha hb
          exact ⟨ha, hb⟩
        have hperm := ih m r2 hp
        exact List.Perm.trans (List.Perm.cons j hperm) (List.Perm.swap m j r2)
      · rw [if_neg hc]
        intro h
        obtain ⟨rfl, rfl⟩ : j = t ∧ rest = r := by
          injection h with h2
          injection h2 with ha hb
          exact ⟨ha, hb⟩
        exact List.Perm.refl _

theorem staleCount_perm (pc : List (Pair × Int)) {l l2 : List MergeJob}
    (h : l.Perm l2) : staleCount pc l = staleCount pc l2 :=
  List.Perm.length_eq (List.Perm.filter _ h)

theorem staleCount_cons (pc : List (Pair × Int)) (j : MergeJob)
    (l : List MergeJob) :
    staleCount pc (j :: l) =
      (if staleJob pc j then 1 else 0) + staleCount pc l := by
  simp only [staleCount, List.filter_cons]
  by_cases h : staleJob pc j
  · simp [h]
    omega
  · simp [h]

theorem trainStep_cont_measure (nm : Nat) (counts : List Int)
    (s t : TrainState) (h : trainStep nm counts s = StepRes.cont t) :
    (t.done = s.done + 1 ∧ s.done < nm) ∨
    (t.done = s.done ∧ t.pc = s.pc ∧
      staleCount t.pc t.heap < staleCount s.pc s.heap) := by
  by_cases hdone : s.done < nm
  · rcases hp : popMax s.heap with _ | ⟨top, rest⟩
    · simp only [trainStep] at h
      rw [if_pos hdone] at h
      simp only [hp] at h
      cases h
    · simp only [trainStep] at h
      rw [if_pos hdone] at h
      simp only [hp] at h
      have hperm := popMax_perm s.heap top rest hp
      have hsplit := staleCount_perm s.pc hperm
      by_cases hstale : top.count ≠ toU64 (lookInt s.pc top.pair)
      · rw [if_pos hstale] at h
        by_cases hcur : 0 < lookInt s.pc top.pair
        · rw [if_pos hcur] at h
          injection h with ht
          subst ht
          refine Or.inr ⟨rfl, rfl, ?_⟩
          show staleCount s.pc
            (⟨top.pair, toU64 (lookInt s.pc top.pair), top.pos⟩ :: rest) <
              staleCount s.pc s.heap
          rw [hsplit, staleCount_cons, staleCount_cons]
          have h1 : staleJob s.pc top := hstale
          have h2 : ¬ staleJob s.pc
              ⟨top.pair, toU64 (lookInt s.pc top.pair), top.pos⟩ := by
            simp [staleJob]
          rw [if_pos h1, if_neg h2]
          omega
        · rw [if_neg hcur] at h
          injection h with ht
          subst ht
          refine Or.inr ⟨rfl, rfl, ?_⟩
          show staleCount s.pc rest < staleCount s.pc s.heap
          rw [hsplit, staleCount_cons]
          have h1 : staleJob s.pc top := hstale
          rw [if_pos h1]
          omega
      · rw [if_neg hstale] at h
        injection h with ht
        subst ht
        exact Or.inl ⟨rfl, hdone⟩
  · simp only [trainStep] at h
    rw [if_neg hdone] at h
    cases h

def trainLoop (nm : Nat) (counts : List Int) (s : TrainState) : TrainState :=
  match h : trainStep nm counts s with
  | StepRes.halt t => t
  | StepRes.cont t => trainLoop nm counts t
termination_by (nm - s.done, staleCount s.pc s.heap)
decreasing_by
  rcases trainStep_cont_measure nm counts s t h with ⟨h1, h2⟩ | ⟨h1, h2, h3⟩
  · exact Prod.Lex.left _ _ (by omega)
  · rw [h1]
    exact Prod.Lex.right _ h3

/-- `Tokenizer::train_core` (lib.rs lines 214-295) on a fresh tokenizer:
`assert!(vocab_size >= 256)` is a fatal precondition, modelled as `none`;
otherwise the initial pair index is built (chunk size `k`), the heap is
filled, and the merge loop runs to completion. -/
def trainCore (k : Nat) (words : List (List Nat)) (counts : List Int)
    (vocabSize : Nat) : Option TrainState :=
  if vocabSize < 256 then none
  else
    let init := countPairsParallel k words counts
    some (trainLoop (vocabSize - 256) counts
      ⟨words, init.1, buildHeap init.1 init.2, [], 0⟩)

theorem trainStep_halt (nm : Nat) (counts : List Int) (s t : TrainState)
    (h : trainStep nm counts s = StepRes.halt t) :
    t = s ∧ (nm ≤ s.done ∨ s.heap = []) := by
  by_cases hdone : s.done < nm
  · rcases hp : popMax s.heap with _ | ⟨top, rest⟩
    · simp only [trainStep] at h
      rw [if_pos hdone] at h
      simp only [hp] at h
      injection h with ht
      exact ⟨ht.symm, Or.inr ((popMax_eq_none _).mp hp)⟩
    · simp only [trainStep] at h
      rw [if_pos hdone] at h
      simp only [hp] at h
      by_cases hstale : top.count ≠ toU64 (lookInt s.pc top.pair)
      · rw [if_pos hstale] at h
        by_cases hcur : 0 < lookInt s.pc top.pair
        · rw [if_pos hcur] at h
          cases h
        · rw [if_neg hcur] at h
          cases h
      · rw [if_neg hstale] at h
        cases h
  · simp only [trainStep] at h
    rw [if_neg hdone] at h
    injection h with ht
    exact ⟨ht.symm, Or.inl (by omega)⟩

theorem trainStep_cont_shape (nm : Nat) (counts : List Int)
    (s t : TrainState) (h : trainStep nm counts s = StepRes.cont t) :
    (t.done = s.done ∧ t.merges = s.merges) ∨
    (s.done < nm ∧ t.done = s.done + 1 ∧
      ∃ p, t.merges = s.merges ++ [(p, 256 + s.done)]) := by
  by_cases hdone : s.done < nm
  · rcases hp : popMax s.heap with _ | ⟨top, rest⟩
    · simp only [trainStep] at h
      rw [if_pos hdone] at h
      simp only [hp] at h
      cases h
    · simp only [trainStep] at h
      rw [if_pos hdone] at h
      simp only [hp] at h
      by_cases hstale : top.count ≠ toU64 (lookInt s.pc top.pair)
      · rw [if_pos hstale] at h
        by_cases hcur : 0 < lookInt s.pc top.pair
        · rw [if_pos hcur] at h
          injection h with ht
          subst ht
          exact Or.inl ⟨rfl, rfl⟩
        · rw [if_neg hcur] at h
          injection h with ht
          subst ht
          exact Or.inl ⟨rfl, rfl⟩
      · rw [if_neg hstale] at h
        injection h with ht
        subst ht
        exact Or.inr ⟨hdone, rfl, top.pair, rfl⟩
  · simp only [trainStep] at h
    rw [if_neg hdone] at h
    cases h

theorem trainLoop_halt_eq (nm : Nat) (counts : List Int) (s t : TrainState)
    (h : trainStep nm counts s = StepRes.halt t) :
    trainLoop nm counts s = t := by
  unfold trainLoop
  split
  · rename_i t2 heq
    rw [h] at heq
    injection heq with h2
    rw [h2]
  · rename_i t2 heq
    rw [h] at heq
    cases heq

theorem trainLoop_cont_eq (nm : Nat) (counts : List Int) (s t : TrainState)
    (h : trainStep nm counts s = StepRes.cont t) :
    trainLoop nm counts s = trainLoop nm counts t := by
  conv_lhs => rw [trainLoop]
  split
  · rename_i t2 heq
    rw [h] at heq
    cases heq
  · rename_i t2 heq
    rw [h] at heq
    injection heq with h2
    rw [h2]

theorem trainLoop_spec (nm : Nat) (counts : List Int) :
    ∀ s : TrainState, s.done ≤ nm → s.merges.length = s.done →
      s.merges.map Prod.snd = List.range' 256 s.done →
      (trainLoop nm counts s).done ≤ nm ∧
      (trainLoop nm counts s).merges.length = (trainLoop nm counts s).done ∧
      (trainLoop nm counts s).merges.map Prod.snd =
        List.range' 256 (trainLoop nm counts s).done ∧
      ((trainLoop nm counts s).done < nm →
        (trainLoop nm counts s).heap = []) := by
  intro s
  induction s using trainLoop.induct nm counts with
  | case1 s t heq =>
    intro hle hlen hmap
    obtain ⟨hts, hexit⟩ := trainStep_halt nm counts s t heq
    rw [trainLoop_halt_eq nm counts s t heq, hts]
    refine ⟨hle, hlen, hmap, ?_⟩
    intro hlt
    rcases hexit with h1 | h1
    · omega
    · exact h1
  | case2 s t heq ih =>
    intro hle hlen hmap
    rw [trainLoop_cont_eq nm counts s t heq]
    rcases trainStep_cont_shape nm counts s t heq with
      ⟨h1, h2⟩ | ⟨h1, h2, p, h3⟩
    · exact ih (by omega) (by rw [h2, h1]; exact hlen)
        (by rw [h2, h1]; exact hmap)
    · refine ih (by omega) ?_ ?_
      · rw [h3, h2]
        simp [hlen]
      · rw [h3, h2, List.map_append, hmap]
        have hrc := @List.range'_concat 1 256 s.done
        simp only [one_mul] at hrc
        rw [hrc]
        rfl

/-- C4: on a fresh tokenizer with `vocab_size = V ≥ 256`, `train_core`
returns normally (early heap exhaustion is not an error), its merge table
holds `k ≤ V - 256` entries whose ids are exactly the contiguous range
`256, …, 256 + k - 1` in insertion order, and whenever fewer than `V - 256`
merges were produced the loop stopped because the heap emptied (that is,
`k = min(V - 256, merges actually available)`). -/
theorem claim4_merge_table (k : Nat) (words : List (List Nat))
    (counts : List Int) (V : Nat) (hV : 256 ≤ V) :
    ∃ st, trainCore k words counts V = some st ∧
      st.merges.length ≤ V - 256 ∧
      st.merges.map Prod.snd = List.range' 256 st.merges.length ∧
      (st.merges.length < V - 256 → st.heap = []) := by
  unfold trainCore
  rw [if_neg (by omega)]
  refine ⟨_, rfl, ?_⟩
  obtain ⟨h1, h2, h3, h4⟩ := trainLoop_spec (V - 256) counts
    ⟨words, (countPairsParallel k words counts).1,
      buildHeap (countPairsParallel k words counts).1
        (countPairsParallel k words counts).2, [], 0⟩
    (Nat.zero_le _) rfl rfl
  refine ⟨by omega, by rw [h2]; exact h3, ?_⟩
  intro hlt
  exact h4 (by omega)

/-- C4 witness: the theorem applied at a concrete corpus and `V = 257`. -/
theorem claim4_witness :
    ∃ st, trainCore 1 [[1, 2]] [1] 257 = some st ∧
      st.merges.length ≤ 257 - 256 ∧
      st.merges.map Prod.snd = List.range' 256 st.merges.length ∧
      (st.merges.length < 257 - 256 → st.heap = []) :=
  claim4_merge_table 1 [[1, 2]] [1] 257 (by omega)

/-- C6: training fails exactly when `vocab_size < 256` (the
`assert!(vocab_size >= 256)` precondition), and training a fresh tokenizer
with `vocab_size = 256` succeeds with an empty merge table. -/
theorem claim6_precondition (k : Nat) (words : List (List Nat))
    (counts : List Int) (V : Nat) :
    ((trainCore k words counts V = none) ↔ V < 256) ∧
    ((trainCore k words counts 256).map TrainState.merges = some []) := by
  constructor
  · unfold trainCore
    split
    · rename_i h
      simp [h]
    · rename_i h
      simp
      omega
  · unfold trainCore
    rw [if_neg (by omega)]
    have hstep : trainStep (256 - 256) counts
        ⟨words, (countPairsParallel k words counts).1,
          buildHeap (countPairsParallel k words counts).1
            (countPairsParallel k words counts).2, [], 0⟩ =
        StepRes.halt ⟨words, (countPairsParallel k words counts).1,
          buildHeap (countPairsParallel k words counts).1
            (countPairsParallel k words counts).2, [], 0⟩ := by
      simp [trainStep]
    have hloop := trainLoop_halt_eq _ _ _ _ hstep
    simp only [hloop]
    rfl

theorem pairCmp_lt (p q : Pair) :
    pairCmp p q = Ordering.lt ↔
      (p.1 < q.1 ∨ (p.1 = q.1 ∧ p.2 < q.2)) := by
  unfold pairCmp
  rcases h : compare p.1 q.1 with _ | _ | _
  · simp [Nat.compare_eq_lt.mp h]
  · have he := Nat.compare_eq_eq.mp h
    rw [Nat.compare_eq_lt]
    constructor
    · intro h2
      exact Or.inr ⟨he, h2⟩
    · rintro (h2 | ⟨_, h2⟩)
      · omega
      · exact h2
  · have hg := Nat.compare_eq_gt.mp h
    constructor
    · intro h2
      cases h2
    · rintro (h2 | ⟨h2, _⟩) <;> omega

theorem pairCmp_gt (p q : Pair) :
    pairCmp p q = Ordering.gt ↔
      (q.1 < p.1 ∨ (q.1 = p.1 ∧ q.2 < p.2)) := by
  unfold pairCmp
  rcases h : compare p.1 q.1 with _ | _ | _
  · have hl := Nat.compare_eq_lt.mp h
    constructor
    · intro h2
      cases h2
    · rintro (h2 | ⟨h2, _⟩) <;> omega
  · have he := Nat.compare_eq_eq.mp h
    rw [Nat.compare_eq_gt]
    constructor
    · intro h2
      exact Or.inr ⟨he.symm, h2⟩
    · rintro (h2 | ⟨_, h2⟩)
      · omega
      · exact h2
  · simp [Nat.compare_eq_gt.mp h]

theorem jobCmp_lt_char (x y : MergeJob) :
    jobCmp x y = Ordering.lt ↔
      (x.count < y.count ∨ (x.count = y.count ∧
        (y.pair.1 < x.pair.1 ∨
          (y.pair.1 = x.pair.1 ∧ y.pair.2 < x.pair.2)))) := by
  unfold jobCmp
  rcases h : compare x.count y.count with _ | _ | _
  · simp [Nat.compare_eq_lt.mp h]
  · have he := Nat.compare_eq_eq.mp h
    rw [pairCmp_lt]
    constructor
    · intro h2
      exact Or.inr ⟨he, h2⟩
    · rintro (h2 | ⟨_, h2⟩)
      · omega
      · exact h2
  · have hg := Nat.compare_eq_gt.mp h
    constructor
    · intro h2
      cases h2
    · rintro (h2 | ⟨h2, _⟩) <;> omega

theorem jobCmp_irrefl (j : MergeJob) : jobCmp j j ≠ Ordering.lt := by
  intro h
  rw [jobCmp_lt_char] at h
  omega

theorem popMax_max (l : List MergeJob) :
    ∀ (t : MergeJob) (r : List MergeJob), popMax l = some (t, r) →
      ∀ j ∈ l, jobCmp t j ≠ Ordering.lt := by
  induction l with
  | nil => intro t r h; cases h
  | cons j rest ih =>
    intro t r
    simp only [popMax]
    rcases hp : popMax rest with _ | ⟨m, r2⟩
    · intro h x hx
      have hjt : j = t := congrArg Prod.fst (Option.some.inj h)
      have hrest : rest = [] := (popMax_eq_none rest).mp hp
      rw [hrest] at hx
      rw [← hjt]
      rcases List.mem_cons.mp hx with hxe | hx2
      · rw [hxe]
        exact jobCmp_irrefl j
      · cases hx2
    · change (if jobCmp j m = Ordering.lt then some (m, j :: r2)
          else some (j, rest)) = some (t, r) →
          ∀ x ∈ j :: rest, jobCmp t x ≠ Ordering.lt
      by_cases hc : jobCmp j m = Ordering.lt
      · rw [if_pos hc]
        intro h x hx
        have hmt : m = t := congrArg Prod.fst (Option.some.inj h)
        rw [← hmt]
        rcases List.mem_cons.mp hx with hxe | hx2
        · rw [hxe]
          intro hl
          simp only [jobCmp_lt_char] at hl hc
          omega
        · exact ih m r2 hp x hx2
      · rw [if_neg hc]
        intro h x hx
        have hjt : j = t := congrArg Prod.fst (Option.some.inj h)
        rw [← hjt]
        rcases List.mem_cons.mp hx with hxe | hx2
        · rw [hxe]
          exact jobCmp_irrefl j
        · have hmx := ih m r2 hp x hx2
          intro hl
          simp only [ne_eq, jobCmp_lt_char] at hl hmx hc
          omega

/-- C5: `MergeJob` ordering (the heap's `Ord`): with equal cached counts
the job whose pair is lexicographically smaller compares strictly greater
(the tie-break is inverted) and is therefore popped first from the
max-heap; with unequal counts the larger count compares greater and pops
first.  `popMax` returns a `jobCmp`-maximal element. -/
theorem claim5_merge_job_order :
    (∀ x y : MergeJob, x.count = y.count →
      (jobCmp x y = Ordering.gt ↔ pairCmp x.pair y.pair = Ordering.lt)) ∧
    (∀ x y : MergeJob, x.count ≠ y.count →
      (jobCmp x y = Ordering.gt ↔ y.count < x.count)) ∧
    (∀ (l : List MergeJob) (t : MergeJob) (r : List MergeJob),
      popMax l = some (t, r) → ∀ j ∈ l, jobCmp t j ≠ Ordering.lt) ∧
    (∀ x y : MergeJob, x.count = y.count →
      pairCmp x.pair y.pair = Ordering.lt →
      popMax [x, y] = some (x, [y]) ∧ popMax [y, x] = some (x, [y])) := by
  refine ⟨?_, ?_, popMax_max, ?_⟩
  · intro x y hcnt
    unfold jobCmp
    rw [Nat.compare_eq_eq.mpr hcnt]
    rw [pairCmp_gt, pairCmp_lt]
  · intro x y hcnt
    unfold jobCmp
    rcases h : compare x.count y.count with _ | _ | _
    · have := Nat.compare_eq_lt.mp h
      constructor
      · intro h2
        cases h2
      · intro h2
        omega
    · exact absurd (Nat.compare_eq_eq.mp h) hcnt
    · have := Nat.compare_eq_gt.mp h
      simp [this]
  · intro x y hcnt hlt
    rw [pairCmp_lt] at hlt
    have hxy : ¬ jobCmp x y = Ordering.lt := by
      rw [jobCmp_lt_char]
      omega
    have hyx : jobCmp y x = Ordering.lt := by
      rw [jobCmp_lt_char]
      omega
    constructor
    · simp [popMax, hxy]
    · simp [popMax, hyx]

/-- C5 witness: two equal-count jobs whose pairs differ; the
lexicographically smaller pair compares greater and pops first in both
insertion orders. -/
theorem claim5_witness :
    (jobCmp ⟨(1, 2), 5, []⟩ ⟨(1, 3), 5, []⟩ = Ordering.gt ↔
      pairCmp (1, 2) (1, 3) = Ordering.lt) ∧
    popMax [⟨(1, 2), 5, []⟩, ⟨(1, 3), 5, []⟩] =
      some (⟨(1, 2), 5, []⟩, [⟨(1, 3), 5, []⟩]) ∧
    popMax [⟨(1, 3), 5, []⟩, ⟨(1, 2), 5, []⟩] =
      some (⟨(1, 2), 5, []⟩, [⟨(1, 3), 5, []⟩]) := by
  refine ⟨claim5_merge_job_order.1 _ _ rfl, ?_, ?_⟩
  · exact (claim5_merge_job_order.2.2.2 ⟨(1, 2), 5, []⟩ ⟨(1, 3), 5, []⟩
      rfl (by decide)).1
  · exact (claim5_merge_job_order.2.2.2 ⟨(1, 2), 5, []⟩ ⟨(1, 3), 5, []⟩
      rfl (by decide)).2

theorem mem_pushJobs (pc : List (Pair × Int)) :
    ∀ (lu : List (Pair × List Nat)) (heap : List MergeJob) (job : MergeJob),
      job ∈ pushJobs pc lu heap →
      job ∈ heap ∨ ∃ e ∈ lu, job.pair = e.1 ∧ job.pos = e.2
  | [], heap, job => fun h => Or.inl h
  | e :: lu, heap, job => fun h => by
    have step : pushJobs pc (e :: lu) heap =
        pushJobs pc lu
          (if 0 < lookInt pc e.1 then
            ⟨e.1, toU64 (lookInt pc e.1), e.2⟩ :: heap
          else heap) := rfl
    rw [step] at h
    rcases mem_pushJobs pc lu _ job h with h2 | ⟨e2, he2, hp⟩
    · split at h2
      · rcases List.mem_cons.mp h2 with he | h3
        · exact Or.inr ⟨e, List.mem_cons_self _ _, by rw [he], by rw [he]⟩
        · exact Or.inl h3
      · exact Or.inl h2
    · exact Or.inr ⟨e2, List.mem_cons_of_mem _ he2, hp⟩

theorem lookupP_of_mem_nodup {α : Type} :
    ∀ (m : List (Pair × α)), (m.map Prod.fst).Nodup →
      ∀ e ∈ m, lookupP m e.1 = some e.2
  | [], _, e, he => by cases he
  | f :: rest, hn, e, he => by
    rw [List.map_cons] at hn
    obtain ⟨hq, hrest⟩ := List.nodup_cons.mp hn
    rcases List.mem_cons.mp he with he2 | h2
    · rw [he2]
      simp [lookupP]
    · have hne : f.1 ≠ e.1 := by
        intro hfe
        exact hq (hfe ▸ List.mem_map_of_mem Prod.fst h2)
      rw [show lookupP (f :: rest) e.1 = lookupP rest e.1 by
        simp [lookupP, hne]]
      exact lookupP_of_mem_nodup rest hrest e h2

theorem countPairsParallel_pos_nodup (k : Nat) (hk : k ≠ 0)
    (words : List (List Nat)) (counts : List Int) :
    ((countPairsParallel k words counts).2.map Prod.fst).Nodup := by
  unfold countPairsParallel
  split
  · exact (countChunk_nodup counts words 0 ([], [])).2.1 (by simp)
  · exact (countPairsChunked_props k hk counts (0, 0) 0 words.length
      words 0 (le_refl _)).2.1

theorem countPairsParallel_posMem (k : Nat) (hk : k ≠ 0)
    (words : List (List Nat)) (counts : List Int) (r : Pair) (j : Nat) :
    j ∈ (lookupP (countPairsParallel k words counts).2 r).getD [] ↔
      segHasIdx counts r j 0 words := by
  unfold countPairsParallel
  split
  · exact countPairsSequential_posMem words counts r j
  · exact (countPairsChunked_props k hk counts r j words.length
      words 0 (le_refl _)).2.2.2.2.2.1

/-- C8 counterexample: the claimed invariant fails after the very first
merge application.  Corpus `[[1,2,3],[1,2],[2,3]]`, multiplicities 1, one
merge budgeted: the first step merges `(1,2) -> 256` (tie with `(2,3)` at
count 2 broken toward the smaller pair), after which `pair_count[(2,3)] =
1 > 0` and word 0 (`[256,3]`) no longer contains `(2,3)`, yet the only
position record for `(2,3)` — its heap job — still carries the stale word
index 0. -/
theorem claim8_cex :
    trainStep 1 [1, 1, 1]
      ⟨[[1, 2, 3], [1, 2], [2, 3]],
       (countPairsParallel 1 [[1, 2, 3], [1, 2], [2, 3]] [1, 1, 1]).1,
       buildHeap
         (countPairsParallel 1 [[1, 2, 3], [1, 2], [2, 3]] [1, 1, 1]).1
         (countPairsParallel 1 [[1, 2, 3], [1, 2], [2, 3]] [1, 1, 1]).2,
       [], 0⟩ =
      StepRes.cont
        ⟨[[256, 3], [256], [2, 3]],
         [((1, 2), 0), ((2, 3), 1), ((256, 3), 1)],
         [⟨(256, 3), 1, [0]⟩, ⟨(2, 3), 2, [2, 0]⟩],
         [((1, 2), 256)], 1⟩ ∧
    (0 : Int) < lookInt [((1, 2), 0), ((2, 3), 1), ((256, 3), 1)] (2, 3) ∧
    (2, 3) ∉ wordPairs [256, 3] ∧
    (⟨(2, 3), 2, [2, 0]⟩ : MergeJob) ∈
      [(⟨(256, 3), 1, [0]⟩ : MergeJob), ⟨(2, 3), 2, [2, 0]⟩] ∧
    (0 : Nat) ∈ [2, 0] := by
  refine ⟨by decide, by decide, by decide, by decide, by decide⟩

/-- C8 (amended: the exactness of `pair_positions` holds at initial
construction — the heap jobs built before the first merge — while after a
merge application the heap snapshots for a pair with positive count may
retain stale word indices, as the counterexample shows): every job placed
on the initial heap carries, for its pair, exactly the set of word indices
whose sequence contains that pair, for strictly positive
multiplicities. -/
theorem claim8_initial_positions (k : Nat) (words : List (List Nat))
    (counts : List Int) (hk : k ≠ 0) (hlen : counts.length = words.length)
    (hpos : ∀ c ∈ counts, 0 < c) :
    ∀ job ∈ buildHeap (countPairsParallel k words counts).1
        (countPairsParallel k words counts).2,
      ∀ j, j ∈ job.pos ↔
        (j < words.length ∧ job.pair ∈ wordPairs (words.getD j [])) := by
  intro job hjob j
  rcases mem_pushJobs _ _ _ _ hjob with h | ⟨e, he, hpair, hposs⟩
  · cases h
  · have ho : ∀ off, off < words.length → counts.getD (0 + off) 0 ≠ 0 := by
      intro off hoff
      have hoc : off < counts.length := by omega
      have hm : counts.getD off 0 ∈ counts := by
        rw [List.getD_eq_getElem counts 0 hoc]
        exact List.getElem_mem hoc
      have := hpos _ hm
      rw [Nat.zero_add]
      omega
    have hnod := countPairsParallel_pos_nodup k hk words counts
    have hlook := lookupP_of_mem_nodup _ hnod e he
    have hmem := countPairsParallel_posMem k hk words counts e.1 j
    rw [hlook] at hmem
    simp only [Option.getD_some] at hmem
    rw [hposs, hpair, hmem,
      segHasIdx_exact counts e.1 j words 0 ho]
    constructor
    · rintro ⟨off, hoff, heq, hm⟩
      rw [Nat.zero_add] at heq
      subst heq
      exact ⟨hoff, hm⟩
    · rintro ⟨hj, hm⟩
      exact ⟨j, hj, by omega, hm⟩

/-- C8 witness: the amended statement applied to a one-word corpus, at the
single job of its initial heap and word index 0. -/
theorem claim8_witness :
    (0 ∈ (⟨(7, 8), 1, [0]⟩ : MergeJob).pos) ↔
      (0 < ([[7, 8]] : List (List Nat)).length ∧
        (⟨(7, 8), 1, [0]⟩ : MergeJob).pair ∈
          wordPairs ([[7, 8]].getD 0 [])) :=
  claim8_initial_positions 1 [[7, 8]] [1] (by decide) (by decide)
    (by decide) ⟨(7, 8), 1, [0]⟩ (by decide) 0

/-- A freshly constructed tokenizer trained once at word level: the result
of `Tokenizer::new()` followed by `train_core` (`train_from_iterator`
without the pretokenization front end).  Training writes only the merge
table; the special-token table stays empty. -/
def trainedTokenizer (k : Nat) (words : List (List Nat))
    (counts : List Int) (V : Nat) : Option Tokenizer :=
  (trainCore k words counts V).map
    (fun st => { merges := st.merges, specialTokens := [] })

/-- C9: for every trained tokenizer `T`, loading `get_merges T` into a
freshly constructed tokenizer yields identical `encode` output on every
input (every chunk sequence; pretokenization is the fixed shared
pattern). -/
theorem claim9_roundtrip (k : Nat) (words : List (List Nat))
    (counts : List Int) (V : Nat) (T : Tokenizer)
    (h : trainedTokenizer k words counts V = some T) :
    ∀ chunks : List (List Nat),
      Tokenizer.encode (loadMerges Tokenizer.new (getMerges T)) chunks =
        Tokenizer.encode T chunks := by
  intro chunks
  obtain ⟨st, hst, hT⟩ : ∃ st, trainCore k words counts V = some st ∧
      T = { merges := st.merges, specialTokens := [] } := by
    cases htc : trainCore k words counts V with
    | none =>
      rw [trainedTokenizer, htc] at h
      cases h
    | some st =>
      rw [trainedTokenizer, htc] at h
      injection h with h2
      exact ⟨st, rfl, h2.symm⟩
  rw [hT]
  rfl

theorem trainedTokenizer_nil :
    trainedTokenizer 1 [] [] 256 = some ⟨[], []⟩ := by
  unfold trainedTokenizer trainCore
  rw [if_neg (by omega)]
  have hstep : trainStep (256 - 256) ([] : List Int)
      ⟨[], (countPairsParallel 1 [] []).1,
        buildHeap (countPairsParallel 1 [] []).1
          (countPairsParallel 1 [] []).2, [], 0⟩ =
      StepRes.halt
        ⟨[], (countPairsParallel 1 [] []).1,
          buildHeap (countPairsParallel 1 [] []).1
            (countPairsParallel 1 [] []).2, [], 0⟩ := by
    simp [trainStep]
  have hloop := trainLoop_halt_eq _ _ _ _ hstep
  simp only [hloop]
  rfl

/-- C9 witness: the round trip applied to a concretely trained (empty)
tokenizer and a concrete chunk. -/
theorem claim9_witness :
    Tokenizer.encode (loadMerges Tokenizer.new (getMerges ⟨[], []⟩))
        [[65]] =
      Tokenizer.encode ⟨[], []⟩ [[65]] :=
  claim9_roundtrip 1 [] [] 256 ⟨[], []⟩ trainedTokenizer_nil [[65]]

end RustTok

